import Mathlib

/-!
Verification development for the memSim virtual-memory simulator
(src/memSim/src/main.rs, src/memSim/src/tlb.rs, src/memSim/src/cli.rs).

The Rust program replays a sequence of logical addresses through a
translation cache (a TLB, backed by a linked hash set) and a fixed-capacity
resident-page table, with FIFO / LRU / OPT replacement, counting TLB misses
and page faults.

Shallow embedding conventions:
- Rust usize is modelled as Nat; the only place where the machine width
  matters is the sentinel usize::MAX in the fifo scan, kept explicitly as
  usizeMax = 2 ^ 64 - 1.
- A Rust panic (out-of-bounds index) is modelled by Option: none means the
  program aborts at that point.
- The LinkedHashSet of the TLB is modelled as a list in insertion order,
  head = oldest (front).  LinkedHashSet.insert moves an already present
  element to the back, LinkedHashSet.pop_front drops the head.
- The backing-store fetch and all printing affect output only, never the
  counters or the tables, so they are not part of the state.
-/

/-- Sentinel used by the Rust fifo scan (usize::MAX, main.rs line 120). -/
def usizeMax : Nat := 2 ^ 64 - 1

/-- PageTableEntry from main.rs lines 11-14. -/
structure PageTableEntry where
  insertion_time : Nat
  pn : Nat
deriving Repr, DecidableEq, Inhabited

/-- Index of the first occurrence of x in l, if any.  Models the first
match of a forward scan such as the inner loops of lru and opt. -/
def firstOcc : List Nat → Nat → Option Nat
  | [], _ => none
  | a :: l, x => if a = x then some 0 else (firstOcc l x).map (· + 1)

/-- Helper eject from main.rs lines 234-246: reads the evicted page number
at replace_idx, then overwrites that slot with the page at present_idx.
Returns none when either index is out of bounds (Rust panics there). -/
def eject (ram : List PageTableEntry) (all_pns : List Nat)
    (present_idx replace_idx : Nat) : Option (List PageTableEntry × Nat) :=
  match ram.get? replace_idx, all_pns.get? present_idx with
  | some entry, some pn =>
      some (ram.set replace_idx ⟨present_idx, pn⟩, entry.pn)
  | _, _ => none

/-- Generic strict-min fold, the loop shape of fifo (main.rs lines 124-130):
state is (best score, its index); an element replaces the state only when
its score is strictly smaller. -/
def minScan (score : PageTableEntry → Nat) :
    List PageTableEntry → Nat → Nat × Nat → Nat × Nat
  | [], _, acc => acc
  | e :: rest, idx, (ot, oi) =>
      minScan score rest (idx + 1)
        (if score e < ot then (score e, idx) else (ot, oi))

/-- Generic strict-max fold, the loop shape of lru (main.rs lines 93-107). -/
def maxScan (score : PageTableEntry → Nat) :
    List PageTableEntry → Nat → Nat × Nat → Nat × Nat
  | [], _, acc => acc
  | e :: rest, idx, (ld, li) =>
      maxScan score rest (idx + 1)
        (if score e > ld then (score e, idx) else (ld, li))

/-- fifo from main.rs lines 115-136: scan for the smallest insertion_time
(first index wins on ties thanks to the strict comparison), then eject that
slot.  Returns (evicted slot index, new table, evicted page number). -/
def fifo (ram : List PageTableEntry) (all_pns : List Nat) (present_idx : Nat) :
    Option (Nat × List PageTableEntry × Nat) :=
  let oldest_idx := (minScan (·.insertion_time) ram 0 (usizeMax, 0)).2
  (eject ram all_pns present_idx oldest_idx).map
    (fun p => (oldest_idx, p.1, p.2))

/-- The per-slot score used by the lru loop body (main.rs lines 95-105):
the first (earliest) occurrence of the page among sequence indices
0 .. present_idx - 2 (the Rust iterator is take (present_idx - 1)), scored
by its distance present_idx - past_idx; a page without such an occurrence
never updates the running maximum, which is the same as score 0. -/
def lruScore (all_pns : List Nat) (present_idx : Nat)
    (e : PageTableEntry) : Nat :=
  match firstOcc (all_pns.take (present_idx - 1)) e.pn with
  | some past_idx => present_idx - past_idx
  | none => 0

/-- The raw lru scan loop, verbatim from main.rs lines 93-107. -/
def lruScanRaw (all_pns : List Nat) (present_idx : Nat) :
    List PageTableEntry → Nat → Nat × Nat → Nat × Nat
  | [], _, acc => acc
  | e :: rest, idx, (ld, li) =>
      let acc :=
        match firstOcc (all_pns.take (present_idx - 1)) e.pn with
        | some past_idx =>
            let dist := present_idx - past_idx
            if dist > ld then (dist, idx) else (ld, li)
        | none => (ld, li)
      lruScanRaw all_pns present_idx rest (idx + 1) acc

/-- lru from main.rs lines 78-113.  When present_idx is the last sequence
index the victim is slot 0 (lines 87-90); otherwise the scan picks the slot
whose score (see lruScore) is maximal, defaulting to slot 0. -/
def lru (ram : List PageTableEntry) (all_pns : List Nat) (present_idx : Nat) :
    Option (Nat × List PageTableEntry × Nat) :=
  if present_idx = all_pns.length - 1 then
    (eject ram all_pns present_idx 0).map (fun p => (0, p.1, p.2))
  else
    let v := (lruScanRaw all_pns present_idx ram 0 (0, 0)).2
    (eject ram all_pns present_idx v).map (fun p => (v, p.1, p.2))

/-- The opt scan loop from main.rs lines 46-70.  future is the sequence
suffix after present_idx; the local index j of the first future occurrence
corresponds to distance j + 1.  An entry with no future occurrence breaks
the loop and becomes the victim immediately (lines 64-69). -/
def optScan (future : List Nat) :
    List PageTableEntry → Nat → Nat × Nat → Nat × Nat
  | [], _, acc => acc
  | e :: rest, idx, (ld, li) =>
      match firstOcc future e.pn with
      | some j =>
          optScan future rest (idx + 1)
            (if j + 1 > ld then (j + 1, idx) else (ld, li))
      | none => (ld, idx)

/-- opt from main.rs lines 31-76: at the last sequence index evict slot 0
(lines 40-43), otherwise evict the slot whose next future use is farthest
(no future use counts as farthest and short-circuits the scan). -/
def opt (ram : List PageTableEntry) (all_pns : List Nat) (present_idx : Nat) :
    Option (Nat × List PageTableEntry × Nat) :=
  if present_idx = all_pns.length - 1 then
    (eject ram all_pns present_idx 0).map (fun p => (0, p.1, p.2))
  else
    let v := (optScan (all_pns.drop (present_idx + 1)) ram 0 (0, 0)).2
    (eject ram all_pns present_idx v).map (fun p => (v, p.1, p.2))

/-- PageReplacementAlgorithm from cli.rs lines 25-30. -/
inductive PageReplacementAlgorithm where
  | Fifo
  | Lru
  | Opt
deriving Repr, DecidableEq

/-- Dispatch from main.rs lines 16-29. -/
def PageReplacementAlgorithm.algorithm (pra : PageReplacementAlgorithm)
    (ram : List PageTableEntry) (all_pns : List Nat) (present_idx : Nat) :
    Option (Nat × List PageTableEntry × Nat) :=
  match pra with
  | .Fifo => fifo ram all_pns present_idx
  | .Lru => lru ram all_pns present_idx
  | .Opt => opt ram all_pns present_idx

/-- Tlb.push from tlb.rs lines 16-21: when the current size equals max_size
the front (least recently inserted) element is popped, then pn is inserted;
LinkedHashSet.insert moves pn to the back when it is already present, which
the erase-then-append models. -/
def tlbPush (maxSize : Nat) (t : List Nat) (pn : Nat) : List Nat :=
  let t := if t.length = maxSize then t.drop 1 else t
  t.erase pn ++ [pn]

/-- The page numbers currently resident in the table, in slot order. -/
def residentPns (ram : List PageTableEntry) : List Nat :=
  ram.map (·.pn)

/-- Simulation state owned by main (main.rs lines 142-146): the TLB, the
resident table, and the two counters. -/
structure SimState where
  tlb : List Nat
  ram_frames : List PageTableEntry
  tlb_misses : Nat
  page_faults : Nat
deriving Repr, DecidableEq, Inhabited

/-- The initial state of a run (main.rs lines 142-146). -/
def initState : SimState := ⟨[], [], 0, 0⟩

/-- One iteration of the driver loop of main (main.rs lines 167-228) at
sequence index i.  frames is args.frames (the Vec capacity), tlbSize is
args.tlb_entries.  The debug flag and all printing affect output only, not
this state.  Returns none when the iteration panics (eject out of bounds,
which happens exactly when the replacement algorithm fails). -/
def step (pra : PageReplacementAlgorithm) (frames tlbSize : Nat)
    (pns : List Nat) (s : SimState) (i : Nat) : Option SimState :=
  match pns.get? i with
  | none => none
  | some pn =>
    if pn ∈ s.tlb then
      some s
    else if pn ∈ residentPns s.ram_frames then
      some { s with tlb := tlbPush tlbSize s.tlb pn,
                    tlb_misses := s.tlb_misses + 1 }
    else if s.ram_frames.length < frames then
      some { s with ram_frames := s.ram_frames ++ [⟨i, pn⟩],
                    tlb := tlbPush tlbSize s.tlb pn,
                    tlb_misses := s.tlb_misses + 1,
                    page_faults := s.page_faults + 1 }
    else
      match pra.algorithm s.ram_frames pns i with
      | some (_, ram, ejected) =>
          some { ram_frames := ram,
                 tlb := tlbPush tlbSize ((s.tlb).erase ejected) pn,
                 tlb_misses := s.tlb_misses + 1,
                 page_faults := s.page_faults + 1 }
      | none => none

/-- State after processing the first i addresses of the sequence (none if
the program has panicked before that point). -/
def runUpTo (pra : PageReplacementAlgorithm) (frames tlbSize : Nat)
    (pns : List Nat) : Nat → Option SimState
  | 0 => some initState
  | i + 1 =>
      match runUpTo pra frames tlbSize pns i with
      | some s =>
          if i < pns.length then step pra frames tlbSize pns s i else some s
      | none => none

/-- A complete run of the simulator over the address sequence. -/
def runSim (pra : PageReplacementAlgorithm) (frames tlbSize : Nat)
    (pns : List Nat) : Option SimState :=
  runUpTo pra frames tlbSize pns pns.length

/-- Number of indices j < i whose page was not resident in the table at the
moment address j was processed.  This is the specification-side counter of
claim C6 (spec section 8: pageFaults equals the count of addresses whose
page was non-resident at time of access), evaluated along the actual run. -/
def countNonResident (pra : PageReplacementAlgorithm) (frames tlbSize : Nat)
    (pns : List Nat) : Nat → Nat
  | 0 => 0
  | i + 1 =>
      countNonResident pra frames tlbSize pns i +
        (match runUpTo pra frames tlbSize pns i, pns.get? i with
         | some s, some pn =>
             if pn ∈ residentPns s.ram_frames then 0 else 1
         | _, _ => 0)

/-- Accumulating decimal-digit parser: the digit loop of usize::from_str.
Returns none as soon as a non-digit character is met.  (Overflow of the
machine word, which from_str also rejects, is not modelled: Nat is
unbounded.) -/
def digitsAux : List Char → Nat → Option Nat
  | [], acc => some acc
  | c :: cs, acc =>
      if c.isDigit then digitsAux cs (acc * 10 + (c.toNat - 48)) else none

/-- The parse of one input line, modelling str.parse::<usize>() from
main.rs line 159: an optional leading plus sign followed by at least one
decimal digit; anything else is an error (none).  A line is modelled as
its character list. -/
def parseUsize? : List Char → Option Nat
  | [] => none
  | '+' :: rest => if rest.isEmpty then none else digitsAux rest 0
  | cs => digitsAux cs 0

/-- Address-file parsing from main.rs lines 157-161: split the input into
lines and keep those that parse as unsigned integers, silently dropping
the rest (filter_map with parse().ok()). -/
def parseAddresses (lines : List (List Char)) : List Nat :=
  lines.filterMap parseUsize?

/-- Page-number extraction from main.rs line 160: a fixed 8-bit field,
(address >> 8) & 0xFF, independent of the configured page size. -/
def pageNumberOfAddr (address : Nat) : Nat :=
  (address >>> 8) &&& 0xFF

/-- Offset extraction from main.rs line 160: address & 0xFF. -/
def offsetOfAddr (address : Nat) : Nat :=
  address &&& 0xFF

/-- A division num / den as printed by print_statistics; the two operands
are cast to f64 and divided with no zero guard, so den = 0 produces the
IEEE NaN, modelled here as none.  The exact quotient is kept as a rational
(the 3-decimal formatting of the printed value is not modelled). -/
def rateOf (num den : Nat) : Option ℚ :=
  if den = 0 then none else some ((num : ℚ) / (den : ℚ))

/-- The summary printed by print_statistics (main.rs lines 248-267). -/
structure SummaryOutput where
  translated : Nat
  faults : Nat
  faultRate : Option ℚ
  hits : Nat
  misses : Nat
  hitRate : Option ℚ
deriving Repr, DecidableEq

/-- print_statistics from main.rs lines 248-267: hits = addresses -
tlb_misses (line 250); the two rates are the unguarded divisions of lines
258-259 and 265. -/
def print_statistics (tlb_misses page_faults addresses : Nat) :
    SummaryOutput :=
  let hits := addresses - tlb_misses
  ⟨addresses, page_faults, rateOf page_faults addresses,
   hits, tlb_misses, rateOf hits addresses⟩

/-- The index of the most recent occurrence of x strictly before index i,
the backward scan that spec section 4.2 prescribes for LRU.  This is the
specification-side definition used to compare the implemented lru against
the words of the spec; it is not part of the program. -/
def lastOccBefore (pns : List Nat) (i x : Nat) : Option Nat :=
  ((List.range i).filter (fun j => pns.get? j = some x)).getLast?

/-! ## Basic facts about the translation cache -/

theorem tlbPush_eq_full (cap : Nat) (t : List Nat) (pn : Nat)
    (h : t.length = cap) : tlbPush cap t pn = (t.drop 1).erase pn ++ [pn] := by
  simp [tlbPush, h]

theorem tlbPush_eq_notFull (cap : Nat) (t : List Nat) (pn : Nat)
    (h : t.length ≠ cap) : tlbPush cap t pn = t.erase pn ++ [pn] := by
  simp [tlbPush, h]

theorem tlbPush_length_le (cap : Nat) (t : List Nat) (pn : Nat)
    (hcap : 1 ≤ cap) (hlen : t.length ≤ cap) :
    (tlbPush cap t pn).length ≤ cap := by
  by_cases h : t.length = cap
  · rw [tlbPush_eq_full cap t pn h]
    have h2 := List.length_erase_le pn (t.drop 1)
    have h3 : (t.drop 1).length = t.length - 1 := List.length_drop 1 t
    simp only [List.length_append, List.length_singleton]
    omega
  · rw [tlbPush_eq_notFull cap t pn h]
    have h2 := List.length_erase_le pn t
    simp only [List.length_append, List.length_singleton]
    omega

theorem mem_tlbPush (cap : Nat) (t : List Nat) (pn x : Nat)
    (hx : x ∈ tlbPush cap t pn) : x = pn ∨ x ∈ t := by
  by_cases h : t.length = cap
  · rw [tlbPush_eq_full cap t pn h] at hx
    rcases List.mem_append.mp hx with h1 | h1
    · exact Or.inr (List.drop_subset 1 t (List.mem_of_mem_erase h1))
    · exact Or.inl (by simpa using h1)
  · rw [tlbPush_eq_notFull cap t pn h] at hx
    rcases List.mem_append.mp hx with h1 | h1
    · exact Or.inr (List.mem_of_mem_erase h1)
    · exact Or.inl (by simpa using h1)

theorem tlbPush_nodup (cap : Nat) (t : List Nat) (pn : Nat)
    (ht : t.Nodup) : (tlbPush cap t pn).Nodup := by
  have key : ∀ l : List Nat, l.Nodup → (l.erase pn ++ [pn]).Nodup := by
    intro l hl
    have he : (l.erase pn).Nodup := hl.erase pn
    have hn : pn ∉ l.erase pn := fun hmem => (hl.mem_erase_iff.mp hmem).1 rfl
    simpa [List.nodup_append] using ⟨he, hn⟩
  by_cases h : t.length = cap
  · rw [tlbPush_eq_full cap t pn h]
    exact key _ (ht.sublist (List.drop_sublist 1 t))
  · rw [tlbPush_eq_notFull cap t pn h]
    exact key _ ht

/-! ## Claim C3: translation-cache push -/

/-- Claim C3, counterexample.  The claim says push(pn) is a no-op when pn
is already present and that after any push the cache size never exceeds the
capacity (a capacity-0 cache stays empty).  Both parts fail: pushing the
already present page 2 into the full cache [1, 2] of capacity 2 pops the
front and loses page 1, and pushing 5 into a capacity-0 cache makes it
grow to size 1. -/
theorem c3_push_counterexample :
    tlbPush 2 [1, 2] 2 = [2] ∧
    tlbPush 0 [] 5 = [5] ∧ ¬ (tlbPush 0 [] 5).length ≤ 0 := by
  refine ⟨by decide, by decide, by decide⟩

/-- Claim C3, amended.  push evicts the front (least recently inserted)
entry exactly when the size equals max_size BEFORE the insertion, whether
or not pn is already present, and then inserts pn at the back.  For a
capacity of at least 1 this keeps the size bounded by the capacity; when pn
is absent the effect is: drop the front if full, then append pn. -/
theorem c3_push_amended (cap : Nat) (t : List Nat) (pn : Nat)
    (hcap : 1 ≤ cap) (hlen : t.length ≤ cap) :
    (tlbPush cap t pn).length ≤ cap ∧
    (pn ∉ t → t.length = cap → tlbPush cap t pn = t.drop 1 ++ [pn]) ∧
    (pn ∉ t → t.length < cap → tlbPush cap t pn = t ++ [pn]) := by
  refine ⟨tlbPush_length_le cap t pn hcap hlen, ?_, ?_⟩
  · intro hmem hfull
    rw [tlbPush_eq_full cap t pn hfull,
      List.erase_of_not_mem (fun h => hmem (List.drop_subset 1 t h))]
  · intro hmem hlt
    rw [tlbPush_eq_notFull cap t pn (by omega),
      List.erase_of_not_mem hmem]

/-- Witness for c3_push_amended at cap = 2, t = [1], pn = 5. -/
theorem c3_push_amended_witness :
    (tlbPush 2 [1] 5).length ≤ 2 ∧
    (5 ∉ [1] → [1].length = 2 → tlbPush 2 [1] 5 = [1].drop 1 ++ [5]) ∧
    (5 ∉ [1] → [1].length < 2 → tlbPush 2 [1] 5 = [1] ++ [5]) :=
  c3_push_amended 2 [1] 5 (by decide) (by decide)

/-! ## Claim C7: address decomposition -/

/-- Claim C7, counterexample.  The claim says pageNumber = address >>
log2(pageSize) for any address magnitude; with the default pageSize = 256
that formula gives 65536 >>> 8 = 256, but the code masks the page number
to 8 bits and yields 0. -/
theorem c7_split_counterexample :
    pageNumberOfAddr 65536 = 0 ∧ 65536 >>> 8 = 256 ∧ (0 : Nat) ≠ 256 := by
  refine ⟨by decide, by decide, by decide⟩

/-- Claim C7, amended.  The split is a fixed 8-bit field pair independent
of the configured page size: pageNumber = (address >>> 8) &&& 0xFF and
offset = address &&& 0xFF.  Only for addresses below 2 ^ 16 (and only for
pageSize = 256) does this coincide with the formula of the claim,
pageNumber = address / 256 and offset = address % 256. -/
theorem c7_split_amended (address : Nat) (h : address < 2 ^ 16) :
    pageNumberOfAddr address = address / 2 ^ 8 ∧
    offsetOfAddr address = address % 2 ^ 8 := by
  constructor
  · have h1 : pageNumberOfAddr address = (address >>> 8) &&& (2 ^ 8 - 1) := rfl
    rw [h1, Nat.and_pow_two_sub_one_eq_mod, Nat.shiftRight_eq_div_pow]
    have h2 : address / 2 ^ 8 < 2 ^ 8 := by
      apply Nat.div_lt_of_lt_mul
      calc address < 2 ^ 16 := h
        _ = 2 ^ 8 * 2 ^ 8 := by norm_num
    exact Nat.mod_eq_of_lt h2
  · have h1 : offsetOfAddr address = address &&& (2 ^ 8 - 1) := rfl
    rw [h1, Nat.and_pow_two_sub_one_eq_mod]

/-- Witness for c7_split_amended at address 300. -/
theorem c7_split_witness :
    pageNumberOfAddr 300 = 300 / 2 ^ 8 ∧ offsetOfAddr 300 = 300 % 2 ^ 8 :=
  c7_split_amended 300 (by decide)

/-! ## Claim C8: non-numeric input lines -/

/-- Claim C8, counterexample.  The claim says the run aborts fatally on the
first non-numeric line and no later line is processed.  The parser of
main.rs line 159 (filter_map with parse().ok()) instead silently drops the
bad line and keeps processing: with lines 12, abc, 7 the address 7 after
the bad line is still parsed and processed. -/
theorem c8_parse_counterexample :
    parseAddresses [['1', '2'], ['a', 'b', 'c'], ['7']] = [12, 7] ∧
    (7 : Nat) ∈ parseAddresses [['1', '2'], ['a', 'b', 'c'], ['7']] := by
  refine ⟨by decide, by decide⟩

/-- Claim C8, amended.  A non-numeric line is silently skipped: the parsed
address sequence of any line list containing it is the concatenation of
the parses of the lines before and after it, with no abort and no effect
on the neighbouring lines. -/
theorem c8_parse_amended (l₁ l₂ : List (List Char)) (bad : List Char)
    (h : parseUsize? bad = none) :
    parseAddresses (l₁ ++ bad :: l₂) =
      parseAddresses l₁ ++ parseAddresses l₂ := by
  simp [parseAddresses, List.filterMap_append, List.filterMap_cons, h]

/-- Witness for c8_parse_amended on lines 12, abc, 7. -/
theorem c8_parse_witness :
    parseAddresses ([['1', '2']] ++ ['a', 'b', 'c'] :: [['7']]) =
      parseAddresses [['1', '2']] ++ parseAddresses [['7']] :=
  c8_parse_amended [['1', '2']] [['7']] ['a', 'b', 'c'] (by decide)

/-! ## Claim C9: statistics rates at zero addresses -/

/-- Claim C9.  The claim says the reporter guards totalAddresses = 0 and
reports both rates as 0.  print_statistics has no such guard: with zero
addresses both printed rates are the division 0 / 0, an IEEE NaN (modelled
as none), which is not the value 0 required by the claim.  The formulas
themselves match the claim for nonzero totals. -/
theorem c9_rate_divzero :
    (print_statistics 0 0 0).faultRate = none ∧
    (print_statistics 0 0 0).hitRate = none ∧
    ∀ q : ℚ, (none : Option ℚ) ≠ some q ∧
      (0 < q.den → ∀ n d : Nat, d ≠ 0 → rateOf n d = some ((n : ℚ) / d)) := by
  refine ⟨rfl, rfl, fun q => ⟨by simp, fun _ n d hd => by simp [rateOf, hd]⟩⟩

/-! ## List access helpers -/

theorem getD_mem {α : Type} [Inhabited α] {l : List α} {j : Nat}
    (h : j < l.length) : l.getD j default ∈ l := by
  rw [List.getD_eq_getElem l default h]
  exact List.getElem_mem h

theorem get?_eq_some_getD {α : Type} [Inhabited α] (l : List α) (i : Nat)
    (h : i < l.length) : l.get? i = some (l.getD i default) := by
  rw [List.getD_eq_getElem l default h, List.get?_eq_getElem?,
    List.getElem?_eq_getElem h]

/-- Successful eject fully determined: the new table overwrites slot
replace_idx with the entry (present_idx, page at present_idx) and returns
the page previously there. -/
theorem eject_eq (ram : List PageTableEntry) (all_pns : List Nat)
    (pi v : Nat) (hv : v < ram.length) (hp : pi < all_pns.length) :
    eject ram all_pns pi v =
      some (ram.set v ⟨pi, all_pns.getD pi 0⟩, (ram.getD v default).pn) := by
  unfold eject
  rw [get?_eq_some_getD ram v hv, get?_eq_some_getD all_pns pi hp]
  simp

/-- Conversely, a successful eject implies both indices were in bounds and
describes the output. -/
theorem eject_shape {ram : List PageTableEntry} {all_pns : List Nat}
    {pi v : Nat} {out : List PageTableEntry × Nat}
    (h : eject ram all_pns pi v = some out) :
    v < ram.length ∧ pi < all_pns.length ∧
      out = (ram.set v ⟨pi, all_pns.getD pi 0⟩, (ram.getD v default).pn) := by
  unfold eject at h
  cases h1 : ram.get? v with
  | none => rw [h1] at h; exact absurd h (by simp)
  | some entry =>
    cases h2 : all_pns.get? pi with
    | none => rw [h1, h2] at h; exact absurd h (by simp)
    | some pn =>
      rw [h1, h2] at h
      simp only [Option.some.injEq] at h
      have hv : v < ram.length := List.get?_eq_some.mp h1 |>.choose
      have hp : pi < all_pns.length := List.get?_eq_some.mp h2 |>.choose
      refine ⟨hv, hp, ?_⟩
      rw [get?_eq_some_getD ram v hv] at h1
      rw [get?_eq_some_getD all_pns pi hp] at h2
      simp only [Option.some.injEq] at h1 h2
      have h2a : all_pns.getD pi 0 = pn := h2
      rw [← h, h1, h2a]

/-! ## Characterizations of the scan loops -/

/-- The strict-max fold either keeps its accumulator (and every score is
bounded by it) or returns the first index attaining the maximum score,
which then strictly exceeds the initial bound and every earlier score. -/
theorem maxScan_spec (score : PageTableEntry → Nat) :
    ∀ (ram : List PageTableEntry) (idx ld li : Nat),
      (maxScan score ram idx (ld, li) = (ld, li) ∧ ∀ e ∈ ram, score e ≤ ld)
      ∨ (∃ j, j < ram.length ∧
          ld < (maxScan score ram idx (ld, li)).1 ∧
          (maxScan score ram idx (ld, li)).2 = idx + j ∧
          (maxScan score ram idx (ld, li)).1 = score (ram.getD j default) ∧
          (∀ j', j' < j →
            score (ram.getD j' default) < (maxScan score ram idx (ld, li)).1) ∧
          (∀ j', j' < ram.length →
            score (ram.getD j' default) ≤ (maxScan score ram idx (ld, li)).1)) := by
  intro ram
  induction ram with
  | nil => intro idx ld li; exact Or.inl ⟨rfl, by simp⟩
  | cons e rest ih =>
    intro idx ld li
    by_cases hgt : score e > ld
    · have hstep : maxScan score (e :: rest) idx (ld, li) =
          maxScan score rest (idx + 1) (score e, idx) := by
        simp [maxScan, hgt]
      rcases ih (idx + 1) (score e) idx with ⟨heq, hall⟩ | ⟨j, hj, hlt, h2, h3, h4, h5⟩
      · refine Or.inr ⟨0, by simp, ?_, ?_, ?_, ?_, ?_⟩
        · rw [hstep, heq]; exact hgt
        · rw [hstep, heq]; simp
        · rw [hstep, heq]; simp
        · intro j' hj'; omega
        · intro j' hj'
          rw [hstep, heq]
          match j' with
          | 0 => simp
          | j' + 1 =>
            simp only [List.getD_cons_succ]
            exact hall _ (getD_mem (by simpa using hj'))
      · refine Or.inr ⟨j + 1, by simpa using hj, ?_, ?_, ?_, ?_, ?_⟩
        · rw [hstep]; omega
        · rw [hstep]; omega
        · rw [hstep]; simpa using h3
        · intro j' hj'
          rw [hstep]
          match j' with
          | 0 => simpa using hlt
          | j' + 1 => simpa using h4 j' (by omega)
        · intro j' hj'
          rw [hstep]
          match j' with
          | 0 => simpa using le_of_lt hlt
          | j' + 1 => simpa using h5 j' (by simpa using hj')
    · have hstep : maxScan score (e :: rest) idx (ld, li) =
          maxScan score rest (idx + 1) (ld, li) := by
        simp [maxScan, hgt]
      rcases ih (idx + 1) ld li with ⟨heq, hall⟩ | ⟨j, hj, hlt, h2, h3, h4, h5⟩
      · refine Or.inl ⟨by rw [hstep, heq], ?_⟩
        intro x hx
        rcases List.mem_cons.mp hx with rfl | hx
        · omega
        · exact hall x hx
      · refine Or.inr ⟨j + 1, by simpa using hj, ?_, ?_, ?_, ?_, ?_⟩
        · rw [hstep]; exact hlt
        · rw [hstep]; omega
        · rw [hstep]; simpa using h3
        · intro j' hj'
          rw [hstep]
          match j' with
          | 0 => simp only [List.getD_cons_zero]; omega
          | j' + 1 => simpa using h4 j' (by omega)
        · intro j' hj'
          rw [hstep]
          match j' with
          | 0 => simp only [List.getD_cons_zero]; omega
          | j' + 1 => simpa using h5 j' (by simpa using hj')

/-- The strict-min fold either keeps its accumulator (and every score is at
least it) or returns the first index attaining the minimum score, which is
then strictly below the initial bound and every earlier score. -/
theorem minScan_spec (score : PageTableEntry → Nat) :
    ∀ (ram : List PageTableEntry) (idx ot oi : Nat),
      (minScan score ram idx (ot, oi) = (ot, oi) ∧ ∀ e ∈ ram, ot ≤ score e)
      ∨ (∃ j, j < ram.length ∧
          (minScan score ram idx (ot, oi)).1 < ot ∧
          (minScan score ram idx (ot, oi)).2 = idx + j ∧
          (minScan score ram idx (ot, oi)).1 = score (ram.getD j default) ∧
          (∀ j', j' < j →
            (minScan score ram idx (ot, oi)).1 < score (ram.getD j' default)) ∧
          (∀ j', j' < ram.length →
            (minScan score ram idx (ot, oi)).1 ≤ score (ram.getD j' default))) := by
  intro ram
  induction ram with
  | nil => intro idx ot oi; exact Or.inl ⟨rfl, by simp⟩
  | cons e rest ih =>
    intro idx ot oi
    by_cases hlt0 : score e < ot
    · have hstep : minScan score (e :: rest) idx (ot, oi) =
          minScan score rest (idx + 1) (score e, idx) := by
        simp [minScan, hlt0]
      rcases ih (idx + 1) (score e) idx with ⟨heq, hall⟩ | ⟨j, hj, hlt, h2, h3, h4, h5⟩
      · refine Or.inr ⟨0, by simp, ?_, ?_, ?_, ?_, ?_⟩
        · rw [hstep, heq]; exact hlt0
        · rw [hstep, heq]; simp
        · rw [hstep, heq]; simp
        · intro j' hj'; omega
        · intro j' hj'
          rw [hstep, heq]
          match j' with
          | 0 => simp
          | j' + 1 =>
            simp only [List.getD_cons_succ]
            exact hall _ (getD_mem (by simpa using hj'))
      · refine Or.inr ⟨j + 1, by simpa using hj, ?_, ?_, ?_, ?_, ?_⟩
        · rw [hstep]; omega
        · rw [hstep]; omega
        · rw [hstep]; simpa using h3
        · intro j' hj'
          rw [hstep]
          match j' with
          | 0 => simpa using hlt
          | j' + 1 => simpa using h4 j' (by omega)
        · intro j' hj'
          rw [hstep]
          match j' with
          | 0 => simpa using le_of_lt hlt
          | j' + 1 => simpa using h5 j' (by simpa using hj')
    · have hstep : minScan score (e :: rest) idx (ot, oi) =
          minScan score rest (idx + 1) (ot, oi) := by
        simp [minScan, hlt0]
      rcases ih (idx + 1) ot oi with ⟨heq, hall⟩ | ⟨j, hj, hlt, h2, h3, h4, h5⟩
      · refine Or.inl ⟨by rw [hstep, heq], ?_⟩
        intro x hx
        rcases List.mem_cons.mp hx with rfl | hx
        · omega
        · exact hall x hx
      · refine Or.inr ⟨j + 1, by simpa using hj, ?_, ?_, ?_, ?_, ?_⟩
        · rw [hstep]; exact hlt
        · rw [hstep]; omega
        · rw [hstep]; simpa using h3
        · intro j' hj'
          rw [hstep]
          match j' with
          | 0 => simp only [List.getD_cons_zero]; omega
          | j' + 1 => simpa using h4 j' (by omega)
        · intro j' hj'
          rw [hstep]
          match j' with
          | 0 => simp only [List.getD_cons_zero]; omega
          | j' + 1 => simpa using h5 j' (by simpa using hj')

/-- The opt scan either keeps its accumulator with every entry having a
future occurrence within the running distance bound, or designates a victim
index j: either the entry at j has no future occurrence (the break of the
Rust loop), or it attains the strictly largest next-use distance among all
entries. -/
theorem optScan_spec (future : List Nat) :
    ∀ (ram : List PageTableEntry) (idx ld li : Nat),
      (optScan future ram idx (ld, li) = (ld, li) ∧
        ∀ e ∈ ram, ∃ m, firstOcc future e.pn = some m ∧ m + 1 ≤ ld)
      ∨ (∃ j, j < ram.length ∧
          (optScan future ram idx (ld, li)).2 = idx + j ∧
          (firstOcc future (ram.getD j default).pn = none ∨
            (ld < (optScan future ram idx (ld, li)).1 ∧
             (∃ m, firstOcc future (ram.getD j default).pn = some m ∧
                (optScan future ram idx (ld, li)).1 = m + 1) ∧
             ∀ j', j' < ram.length → ∃ m',
               firstOcc future (ram.getD j' default).pn = some m' ∧
                 m' + 1 ≤ (optScan future ram idx (ld, li)).1))) := by
  intro ram
  induction ram with
  | nil => intro idx ld li; exact Or.inl ⟨rfl, by simp⟩
  | cons e rest ih =>
    intro idx ld li
    cases hf : firstOcc future e.pn with
    | none =>
      have hstep : optScan future (e :: rest) idx (ld, li) = (ld, idx) := by
        simp [optScan, hf]
      refine Or.inr ⟨0, by simp, by rw [hstep]; simp, Or.inl (by simpa using hf)⟩
    | some m =>
      by_cases hgt : m + 1 > ld
      · have hstep : optScan future (e :: rest) idx (ld, li) =
            optScan future rest (idx + 1) (m + 1, idx) := by
          simp [optScan, hf, hgt]
        rcases ih (idx + 1) (m + 1) idx with ⟨heq, hall⟩ |
          ⟨j, hj, h2, hcase⟩
        · refine Or.inr ⟨0, by simp, by rw [hstep, heq]; simp, Or.inr ?_⟩
          refine ⟨by rw [hstep, heq]; exact hgt, ?_, ?_⟩
          · exact ⟨m, by simpa using hf, by rw [hstep, heq]⟩
          · intro j' hj'
            rw [hstep, heq]
            match j' with
            | 0 => exact ⟨m, by simpa using hf, by simp⟩
            | j' + 1 =>
              simp only [List.getD_cons_succ]
              exact hall _ (getD_mem (by simpa using hj'))
        · refine Or.inr ⟨j + 1, by simpa using hj, by rw [hstep]; omega, ?_⟩
          rcases hcase with hnone | ⟨hlt, ⟨m2, hf2, he2⟩, hall2⟩
          · exact Or.inl (by simpa using hnone)
          · refine Or.inr ⟨by rw [hstep]; omega, ?_, ?_⟩
            · exact ⟨m2, by simpa using hf2, by rw [hstep]; exact he2⟩
            · intro j' hj'
              rw [hstep]
              match j' with
              | 0 => exact ⟨m, by simpa using hf, by omega⟩
              | j' + 1 =>
                simpa using hall2 j' (by simpa using hj')
      · have hstep : optScan future (e :: rest) idx (ld, li) =
            optScan future rest (idx + 1) (ld, li) := by
          simp [optScan, hf, hgt]
        rcases ih (idx + 1) ld li with ⟨heq, hall⟩ | ⟨j, hj, h2, hcase⟩
        · refine Or.inl ⟨by rw [hstep, heq], ?_⟩
          intro x hx
          rcases List.mem_cons.mp hx with rfl | hx
          · exact ⟨m, hf, by omega⟩
          · exact hall x hx
        · refine Or.inr ⟨j + 1, by simpa using hj, by rw [hstep]; omega, ?_⟩
          rcases hcase with hnone | ⟨hlt, ⟨m2, hf2, he2⟩, hall2⟩
          · exact Or.inl (by simpa using hnone)
          · refine Or.inr ⟨by rw [hstep]; exact hlt, ?_, ?_⟩
            · exact ⟨m2, by simpa using hf2, by rw [hstep]; exact he2⟩
            · intro j' hj'
              rw [hstep]
              match j' with
              | 0 => exact ⟨m, by simpa using hf, by omega⟩
              | j' + 1 =>
                simpa using hall2 j' (by simpa using hj')

/-- The raw lru loop is the strict-max fold over lruScore: an entry whose
page has no occurrence in the scanned range never updates the accumulator,
exactly as a zero score never wins the strict comparison. -/
theorem lruScanRaw_eq_maxScan (all_pns : List Nat) (pi : Nat) :
    ∀ (ram : List PageTableEntry) (idx : Nat) (acc : Nat × Nat),
      lruScanRaw all_pns pi ram idx acc =
        maxScan (lruScore all_pns pi) ram idx acc := by
  intro ram
  induction ram with
  | nil => intro idx acc; rfl
  | cons e rest ih =>
    intro idx acc
    obtain ⟨ld, li⟩ := acc
    cases hf : firstOcc (all_pns.take (pi - 1)) e.pn with
    | none => simp [lruScanRaw, maxScan, lruScore, hf, ih]
    | some p => simp [lruScanRaw, maxScan, lruScore, hf, ih]

/-! ## Claim C2: the LRU victim choice -/

/-- Claim C2, counterexample.  With resident pages 1 (slot 0, admitted at
index 0) and 2 (slot 1, admitted at index 1) and the sequence
[1, 2, 1, 3, 9], the fault at index 3 should, per the claim, evict the page
whose most recent prior occurrence is farthest in the past: page 1 was last
used at index 2 and page 2 at index 1, so the claim demands evicting
page 2.  The implementation evicts slot 0, page 1. -/
theorem c2_lru_counterexample :
    lru [⟨0, 1⟩, ⟨1, 2⟩] [1, 2, 1, 3, 9] 3 =
      some (0, [⟨3, 3⟩, ⟨1, 2⟩], 1) ∧
    lastOccBefore [1, 2, 1, 3, 9] 3 1 = some 2 ∧
    lastOccBefore [1, 2, 1, 3, 9] 3 2 = some 1 ∧
    (3 : Nat) - 1 > 3 - 2 := by
  refine ⟨by decide, by decide, by decide, by decide⟩

/-- Claim C2, amended.  Away from the last sequence index, the lru
implementation scores each resident slot by the distance from present_idx
back to the EARLIEST occurrence of its page among indices
0 .. present_idx - 2 (zero when the page does not occur there, so such a
page is skipped rather than treated as maximally stale), and evicts the
lowest slot index attaining the maximal score; when no resident page
occurs in that range this degenerates to slot 0.  The victim slot is
overwritten with the faulting page stamped with the current index. -/
theorem c2_lru_amended (ram : List PageTableEntry) (all_pns : List Nat)
    (pi : Nat) (hne : ram ≠ []) (hidx : pi < all_pns.length)
    (hlast : pi ≠ all_pns.length - 1) :
    ∃ v, v < ram.length ∧
      lru ram all_pns pi =
        some (v, ram.set v ⟨pi, all_pns.getD pi 0⟩,
          (ram.getD v default).pn) ∧
      (∀ j, j < ram.length →
        lruScore all_pns pi (ram.getD j default) ≤
          lruScore all_pns pi (ram.getD v default)) ∧
      (∀ j, j < v →
        lruScore all_pns pi (ram.getD j default) <
          lruScore all_pns pi (ram.getD v default)) := by
  have hlen : 0 < ram.length := List.length_pos.mpr hne
  have hv : lru ram all_pns pi =
      (eject ram all_pns pi
        ((maxScan (lruScore all_pns pi) ram 0 (0, 0)).2)).map
        (fun p => ((maxScan (lruScore all_pns pi) ram 0 (0, 0)).2, p.1, p.2)) := by
    rw [lru, if_neg hlast, lruScanRaw_eq_maxScan]
  rcases maxScan_spec (lruScore all_pns pi) ram 0 0 0 with
    ⟨heq, hall⟩ | ⟨j, hj, hlt, h2, h3, h4, h5⟩
  · refine ⟨0, hlen, ?_, ?_, ?_⟩
    · rw [hv, heq, eject_eq ram all_pns pi 0 hlen hidx]
      rfl
    · intro j hjlen
      have h0 : lruScore all_pns pi (ram.getD j default) ≤ 0 :=
        hall _ (getD_mem hjlen)
      omega
    · intro j hj0
      omega
  · refine ⟨j, by omega, ?_, ?_, ?_⟩
    · have hj2 : (maxScan (lruScore all_pns pi) ram 0 (0, 0)).2 = j := by
        omega
      rw [hv, hj2, eject_eq ram all_pns pi j (by omega) hidx]
      rfl
    · intro j' hj'
      rw [← h3]
      exact h5 j' hj'
    · intro j' hj'
      rw [← h3]
      exact h4 j' hj'

/-- Witness for c2_lru_amended on the counterexample instance. -/
theorem c2_lru_amended_witness :
    ∃ v, v < ([⟨0, 1⟩, ⟨1, 2⟩] : List PageTableEntry).length ∧
      lru [⟨0, 1⟩, ⟨1, 2⟩] [1, 2, 1, 3, 9] 3 =
        some (v, ([⟨0, 1⟩, ⟨1, 2⟩] : List PageTableEntry).set v
            ⟨3, [1, 2, 1, 3, 9].getD 3 0⟩,
          (([⟨0, 1⟩, ⟨1, 2⟩] : List PageTableEntry).getD v default).pn) ∧
      (∀ j, j < ([⟨0, 1⟩, ⟨1, 2⟩] : List PageTableEntry).length →
        lruScore [1, 2, 1, 3, 9] 3
            (([⟨0, 1⟩, ⟨1, 2⟩] : List PageTableEntry).getD j default) ≤
          lruScore [1, 2, 1, 3, 9] 3
            (([⟨0, 1⟩, ⟨1, 2⟩] : List PageTableEntry).getD v default)) ∧
      (∀ j, j < v →
        lruScore [1, 2, 1, 3, 9] 3
            (([⟨0, 1⟩, ⟨1, 2⟩] : List PageTableEntry).getD j default) <
          lruScore [1, 2, 1, 3, 9] 3
            (([⟨0, 1⟩, ⟨1, 2⟩] : List PageTableEntry).getD v default)) :=
  c2_lru_amended [⟨0, 1⟩, ⟨1, 2⟩] [1, 2, 1, 3, 9] 3
    (by decide) (by decide) (by decide)

/-! ## Claim C4: the FIFO victim choice -/

/-- Claim C4.  On a full table the fifo algorithm evicts exactly the slot
with the smallest admissionIndex (insertion_time), breaking ties by the
lowest slot index, and overwrites that slot with the new page stamped with
the current sequence index.  The hypothesis that insertion times do not
exceed usize::MAX reflects that Rust insertion times are sequence indices
held in a machine word; the scan starts from the sentinel usize::MAX. -/
theorem c4_fifo_evicts_oldest (ram : List PageTableEntry)
    (all_pns : List Nat) (present_idx : Nat) (hne : ram ≠ [])
    (hmax : ∀ e ∈ ram, e.insertion_time ≤ usizeMax)
    (hidx : present_idx < all_pns.length) :
    ∃ v, v < ram.length ∧
      fifo ram all_pns present_idx =
        some (v, ram.set v ⟨present_idx, all_pns.getD present_idx 0⟩,
          (ram.getD v default).pn) ∧
      (∀ j, j < ram.length →
        (ram.getD v default).insertion_time ≤
          (ram.getD j default).insertion_time) ∧
      (∀ j, j < v →
        (ram.getD v default).insertion_time <
          (ram.getD j default).insertion_time) := by
  have hlen : 0 < ram.length := List.length_pos.mpr hne
  have hv : fifo ram all_pns present_idx =
      (eject ram all_pns present_idx
        ((minScan (·.insertion_time) ram 0 (usizeMax, 0)).2)).map
        (fun p => ((minScan (·.insertion_time) ram 0 (usizeMax, 0)).2,
          p.1, p.2)) := by
    rw [fifo]
  rcases minScan_spec (·.insertion_time) ram 0 usizeMax 0 with
    ⟨heq, hall⟩ | ⟨j, hj, hlt, h2, h3, h4, h5⟩
  · -- every insertion time equals the sentinel; the scan never updates and
    -- slot 0 is returned, which is also the least argmin here.
    have hconst : ∀ e ∈ ram, e.insertion_time = usizeMax := by
      intro e he
      have h1 := hall e he
      have h2 := hmax e he
      omega
    refine ⟨0, hlen, ?_, ?_, ?_⟩
    · rw [hv, heq, eject_eq ram all_pns present_idx 0 hlen hidx]
      rfl
    · intro j hjlen
      rw [hconst _ (getD_mem hlen), hconst _ (getD_mem hjlen)]
    · intro j hj0
      omega
  · refine ⟨j, by omega, ?_, ?_, ?_⟩
    · have hj2 : (minScan (·.insertion_time) ram 0 (usizeMax, 0)).2 = j := by
        omega
      rw [hv, hj2, eject_eq ram all_pns present_idx j (by omega) hidx]
      rfl
    · intro j' hj'
      have := h5 j' hj'
      simp only at h3 this
      omega
    · intro j' hj'
      have := h4 j' hj'
      simp only at h3 this
      omega

/-- Witness for c4_fifo_evicts_oldest on a concrete full table. -/
theorem c4_fifo_witness :
    ∃ v, v < ([⟨5, 8⟩, ⟨2, 9⟩] : List PageTableEntry).length ∧
      fifo [⟨5, 8⟩, ⟨2, 9⟩] [4, 4, 7] 2 =
        some (v, ([⟨5, 8⟩, ⟨2, 9⟩] : List PageTableEntry).set v
            ⟨2, [4, 4, 7].getD 2 0⟩,
          (([⟨5, 8⟩, ⟨2, 9⟩] : List PageTableEntry).getD v default).pn) ∧
      (∀ j, j < ([⟨5, 8⟩, ⟨2, 9⟩] : List PageTableEntry).length →
        (([⟨5, 8⟩, ⟨2, 9⟩] : List PageTableEntry).getD v
            default).insertion_time ≤
          (([⟨5, 8⟩, ⟨2, 9⟩] : List PageTableEntry).getD j
            default).insertion_time) ∧
      (∀ j, j < v →
        (([⟨5, 8⟩, ⟨2, 9⟩] : List PageTableEntry).getD v
            default).insertion_time <
          (([⟨5, 8⟩, ⟨2, 9⟩] : List PageTableEntry).getD j
            default).insertion_time) :=
  c4_fifo_evicts_oldest [⟨5, 8⟩, ⟨2, 9⟩] [4, 4, 7] 2
    (by decide) (by decide) (by decide)

/-! ## Helpers about List.set and resident page lists -/

theorem mem_of_mem_set {α : Type} {l : List α} {v : Nat} {x a : α}
    (h : a ∈ l.set v x) : a = x ∨ a ∈ l := by
  induction l generalizing v with
  | nil => simp at h
  | cons b rest ih =>
    match v with
    | 0 =>
      rcases List.mem_cons.mp h with rfl | h1
      · exact Or.inl rfl
      · exact Or.inr (List.mem_cons_of_mem b h1)
    | v + 1 =>
      rcases List.mem_cons.mp h with rfl | h1
      · exact Or.inr (List.mem_cons_self a rest)
      · rcases ih h1 with h2 | h2
        · exact Or.inl h2
        · exact Or.inr (List.mem_cons_of_mem b h2)

theorem nodup_set {α : Type} {l : List α} {v : Nat} {x : α}
    (hl : l.Nodup) (hx : x ∉ l) : (l.set v x).Nodup := by
  induction l generalizing v with
  | nil => simp
  | cons b rest ih =>
    match v with
    | 0 =>
      have hb : rest.Nodup := (List.nodup_cons.mp hl).2
      exact List.nodup_cons.mpr ⟨fun h => hx (List.mem_cons_of_mem b h), hb⟩
    | v + 1 =>
      have hb := List.nodup_cons.mp hl
      refine List.nodup_cons.mpr ⟨?_, ih hb.2 (fun h => hx (List.mem_cons_of_mem b h))⟩
      intro h
      rcases mem_of_mem_set h with rfl | h1
      · exact hx (List.mem_cons_self b rest)
      · exact hb.1 h1

theorem mem_set_self {α : Type} {l : List α} {v : Nat} {x : α}
    (h : v < l.length) : x ∈ l.set v x := by
  refine List.mem_iff_getElem.mpr ⟨v, by simpa using h, ?_⟩
  exact List.getElem_set_self (by simpa using h)

theorem mem_set_of_ne {α : Type} [Inhabited α] {l : List α} {v : Nat}
    {a x : α} (ha : a ∈ l) (hv : v < l.length)
    (hne : a ≠ l.getD v default) : a ∈ l.set v x := by
  obtain ⟨k, hk, hka⟩ := List.getElem_of_mem ha
  have hkv : k ≠ v := by
    intro hkveq
    apply hne
    rw [List.getD_eq_getElem l default hv, ← hka]
    subst hkveq
    rfl
  refine List.mem_iff_getElem.mpr ⟨k, by simpa using hk, ?_⟩
  rw [List.getElem_set_ne hkv.symm]
  exact hka

theorem residentPns_length (ram : List PageTableEntry) :
    (residentPns ram).length = ram.length := by
  simp [residentPns]

theorem residentPns_set (ram : List PageTableEntry) (v : Nat)
    (e : PageTableEntry) :
    residentPns (ram.set v e) = (residentPns ram).set v e.pn := by
  simp [residentPns, List.map_set]

theorem residentPns_append (ram : List PageTableEntry) (e : PageTableEntry) :
    residentPns (ram ++ [e]) = residentPns ram ++ [e.pn] := by
  simp [residentPns]

theorem residentPns_getD (ram : List PageTableEntry) (v : Nat)
    (h : v < ram.length) :
    (residentPns ram).getD v default = (ram.getD v default).pn := by
  have h2 : v < (residentPns ram).length := by simpa [residentPns_length] using h
  rw [List.getD_eq_getElem _ default h2, List.getD_eq_getElem ram default h]
  simp [residentPns]

theorem getD_pn_mem_residentPns (ram : List PageTableEntry) (v : Nat)
    (h : v < ram.length) :
    (ram.getD v default).pn ∈ residentPns ram := by
  rw [← residentPns_getD ram v h]
  exact getD_mem (by simpa [residentPns_length] using h)

/-! ## Shape and totality of the replacement algorithms -/

theorem eject_map_shape {ram : List PageTableEntry} {pns : List Nat}
    {i w : Nat} {v : Nat} {ram2 : List PageTableEntry} {ej : Nat}
    (h : (eject ram pns i w).map (fun p => (w, p.1, p.2)) =
      some (v, ram2, ej)) :
    v = w ∧ w < ram.length ∧ i < pns.length ∧
      ram2 = ram.set w ⟨i, pns.getD i 0⟩ ∧
      ej = (ram.getD w default).pn := by
  cases he : eject ram pns i w with
  | none => rw [he] at h; simp at h
  | some out =>
    rw [he] at h
    obtain ⟨hw, hp, hout⟩ := eject_shape he
    have hx : (w, out.1, out.2) = (v, ram2, ej) := Option.some.inj h
    have h1 : w = v := congrArg Prod.fst hx
    have h2 : out.1 = ram2 := congrArg (fun q => q.2.1) hx
    have h3 : out.2 = ej := congrArg (fun q => q.2.2) hx
    refine ⟨h1.symm, hw, hp, ?_, ?_⟩
    · rw [← h2, hout]
    · rw [← h3, hout]

theorem minScan_snd_lt (score : PageTableEntry → Nat)
    (ram : List PageTableEntry) (d : Nat) (hne : ram ≠ []) :
    (minScan score ram 0 (d, 0)).2 < ram.length := by
  have hlen : 0 < ram.length := List.length_pos.mpr hne
  rcases minScan_spec score ram 0 d 0 with ⟨heq, _⟩ | ⟨j, hj, _, h2, _⟩
  · rw [heq]; exact hlen
  · omega

theorem maxScan_snd_lt (score : PageTableEntry → Nat)
    (ram : List PageTableEntry) (d : Nat) (hne : ram ≠ []) :
    (maxScan score ram 0 (d, 0)).2 < ram.length := by
  have hlen : 0 < ram.length := List.length_pos.mpr hne
  rcases maxScan_spec score ram 0 d 0 with ⟨heq, _⟩ | ⟨j, hj, _, h2, _⟩
  · rw [heq]; exact hlen
  · omega

theorem optScan_snd_lt (future : List Nat) (ram : List PageTableEntry)
    (d : Nat) (hne : ram ≠ []) :
    (optScan future ram 0 (d, 0)).2 < ram.length := by
  have hlen : 0 < ram.length := List.length_pos.mpr hne
  rcases optScan_spec future ram 0 d 0 with ⟨heq, _⟩ | ⟨j, hj, h2, _⟩
  · rw [heq]; exact hlen
  · omega

/-- Unfolding equations for the dispatch, one per variant. -/
theorem algorithm_fifo_def (ram : List PageTableEntry) (pns : List Nat)
    (i : Nat) :
    PageReplacementAlgorithm.algorithm .Fifo ram pns i =
      (eject ram pns i ((minScan (·.insertion_time) ram 0 (usizeMax, 0)).2)).map
        (fun p => ((minScan (·.insertion_time) ram 0 (usizeMax, 0)).2,
          p.1, p.2)) := rfl

theorem algorithm_lru_def (ram : List PageTableEntry) (pns : List Nat)
    (i : Nat) :
    PageReplacementAlgorithm.algorithm .Lru ram pns i =
      (if i = pns.length - 1 then
        (eject ram pns i 0).map (fun p => (0, p.1, p.2))
      else
        (eject ram pns i ((lruScanRaw pns i ram 0 (0, 0)).2)).map
          (fun p => ((lruScanRaw pns i ram 0 (0, 0)).2, p.1, p.2))) := rfl

theorem algorithm_opt_def (ram : List PageTableEntry) (pns : List Nat)
    (i : Nat) :
    PageReplacementAlgorithm.algorithm .Opt ram pns i =
      (if i = pns.length - 1 then
        (eject ram pns i 0).map (fun p => (0, p.1, p.2))
      else
        (eject ram pns i ((optScan (pns.drop (i + 1)) ram 0 (0, 0)).2)).map
          (fun p => ((optScan (pns.drop (i + 1)) ram 0 (0, 0)).2,
            p.1, p.2))) := rfl

/-- Every successful run of any of the three algorithms has the common
shape promised by the spec contract (section 4.2): some in-bounds victim
slot is overwritten with (current index, current page) and its previous
page number is returned. -/
theorem algorithm_shape {pra : PageReplacementAlgorithm}
    {ram : List PageTableEntry} {pns : List Nat} {i : Nat}
    {v : Nat} {ram2 : List PageTableEntry} {ej : Nat}
    (h : pra.algorithm ram pns i = some (v, ram2, ej)) :
    v < ram.length ∧ i < pns.length ∧
      ram2 = ram.set v ⟨i, pns.getD i 0⟩ ∧
      ej = (ram.getD v default).pn := by
  cases pra with
  | Fifo =>
    rw [algorithm_fifo_def] at h
    obtain ⟨h1, h2, h3, h4, h5⟩ := eject_map_shape h
    subst h1
    exact ⟨h2, h3, h4, h5⟩
  | Lru =>
    rw [algorithm_lru_def] at h
    by_cases hbr : i = pns.length - 1
    · rw [if_pos hbr] at h
      obtain ⟨h1, h2, h3, h4, h5⟩ := eject_map_shape h
      subst h1
      exact ⟨h2, h3, h4, h5⟩
    · rw [if_neg hbr] at h
      obtain ⟨h1, h2, h3, h4, h5⟩ := eject_map_shape h
      subst h1
      exact ⟨h2, h3, h4, h5⟩
  | Opt =>
    rw [algorithm_opt_def] at h
    by_cases hbr : i = pns.length - 1
    · rw [if_pos hbr] at h
      obtain ⟨h1, h2, h3, h4, h5⟩ := eject_map_shape h
      subst h1
      exact ⟨h2, h3, h4, h5⟩
    · rw [if_neg hbr] at h
      obtain ⟨h1, h2, h3, h4, h5⟩ := eject_map_shape h
      subst h1
      exact ⟨h2, h3, h4, h5⟩

/-- On a nonempty table and an in-bounds index, each algorithm succeeds. -/
theorem algorithm_isSome (pra : PageReplacementAlgorithm)
    (ram : List PageTableEntry) (pns : List Nat) (i : Nat)
    (hne : ram ≠ []) (hidx : i < pns.length) :
    (pra.algorithm ram pns i).isSome = true := by
  have hlen : 0 < ram.length := List.length_pos.mpr hne
  cases pra with
  | Fifo =>
    rw [algorithm_fifo_def,
      eject_eq ram pns i _ (minScan_snd_lt _ ram usizeMax hne) hidx]
    rfl
  | Lru =>
    rw [algorithm_lru_def]
    by_cases hbr : i = pns.length - 1
    · rw [if_pos hbr, eject_eq ram pns i 0 hlen hidx]
      rfl
    · rw [if_neg hbr, lruScanRaw_eq_maxScan,
        eject_eq ram pns i _ (maxScan_snd_lt _ ram 0 hne) hidx]
      rfl
  | Opt =>
    rw [algorithm_opt_def]
    by_cases hbr : i = pns.length - 1
    · rw [if_pos hbr, eject_eq ram pns i 0 hlen hidx]
      rfl
    · rw [if_neg hbr, eject_eq ram pns i _ (optScan_snd_lt _ ram 0 hne) hidx]
      rfl

/-! ## Driver-step invariants -/

/-- The run invariant: the resident table never exceeds the frame count,
resident page numbers are pairwise distinct, the TLB is duplicate free,
every TLB entry is resident, and (for a positive cache capacity) the TLB
size is bounded by the capacity. -/
def SimInv (tlbSize frames : Nat) (s : SimState) : Prop :=
  s.ram_frames.length ≤ frames ∧
  (residentPns s.ram_frames).Nodup ∧
  s.tlb.Nodup ∧
  (∀ x ∈ s.tlb, x ∈ residentPns s.ram_frames) ∧
  (1 ≤ tlbSize → s.tlb.length ≤ tlbSize)

/-- One unfolding of step once the current page is known. -/
theorem step_eq_of_get {pra : PageReplacementAlgorithm}
    {frames tlbSize : Nat} {pns : List Nat} {s : SimState} {i : Nat}
    {pn : Nat} (hg : pns.get? i = some pn) :
    step pra frames tlbSize pns s i =
      (if pn ∈ s.tlb then
        some s
      else if pn ∈ residentPns s.ram_frames then
        some { s with tlb := tlbPush tlbSize s.tlb pn,
                      tlb_misses := s.tlb_misses + 1 }
      else if s.ram_frames.length < frames then
        some { s with ram_frames := s.ram_frames ++ [⟨i, pn⟩],
                      tlb := tlbPush tlbSize s.tlb pn,
                      tlb_misses := s.tlb_misses + 1,
                      page_faults := s.page_faults + 1 }
      else
        match pra.algorithm s.ram_frames pns i with
        | some (_, ram, ejected) =>
            some { ram_frames := ram,
                   tlb := tlbPush tlbSize ((s.tlb).erase ejected) pn,
                   tlb_misses := s.tlb_misses + 1,
                   page_faults := s.page_faults + 1 }
        | none => none) := by
  unfold step
  rw [hg]

/-- Case analysis of one driver iteration: TLB hit, soft miss, hard miss
with a free frame, or hard miss with eviction. -/
theorem step_cases {pra : PageReplacementAlgorithm} {frames tlbSize : Nat}
    {pns : List Nat} {s : SimState} {i : Nat} {s' : SimState}
    (h : step pra frames tlbSize pns s i = some s') :
    ∃ pn, pns.get? i = some pn ∧
      ((pn ∈ s.tlb ∧ s' = s) ∨
       (pn ∉ s.tlb ∧ pn ∈ residentPns s.ram_frames ∧
         s' = { s with tlb := tlbPush tlbSize s.tlb pn,
                       tlb_misses := s.tlb_misses + 1 }) ∨
       (pn ∉ s.tlb ∧ pn ∉ residentPns s.ram_frames ∧
         s.ram_frames.length < frames ∧
         s' = { s with ram_frames := s.ram_frames ++ [⟨i, pn⟩],
                       tlb := tlbPush tlbSize s.tlb pn,
                       tlb_misses := s.tlb_misses + 1,
                       page_faults := s.page_faults + 1 }) ∨
       (pn ∉ s.tlb ∧ pn ∉ residentPns s.ram_frames ∧
         ¬ s.ram_frames.length < frames ∧
         ∃ v, v < s.ram_frames.length ∧ i < pns.length ∧
           pra.algorithm s.ram_frames pns i =
             some (v, s.ram_frames.set v ⟨i, pn⟩,
               (s.ram_frames.getD v default).pn) ∧
           s' = { ram_frames := s.ram_frames.set v ⟨i, pn⟩,
                  tlb := tlbPush tlbSize
                    (s.tlb.erase ((s.ram_frames.getD v default).pn)) pn,
                  tlb_misses := s.tlb_misses + 1,
                  page_faults := s.page_faults + 1 })) := by
  cases hg : pns.get? i with
  | none =>
    unfold step at h
    rw [hg] at h
    exact absurd h (by simp)
  | some pn =>
    rw [step_eq_of_get hg] at h
    have hpn : pns.getD i 0 = pn := by
      rw [List.getD_eq_getElem?_getD, ← List.get?_eq_getElem?, hg]
      rfl
    refine ⟨pn, rfl, ?_⟩
    by_cases h1 : pn ∈ s.tlb
    · rw [if_pos h1] at h
      exact Or.inl ⟨h1, (Option.some.inj h).symm⟩
    · rw [if_neg h1] at h
      by_cases h2 : pn ∈ residentPns s.ram_frames
      · rw [if_pos h2] at h
        exact Or.inr (Or.inl ⟨h1, h2, (Option.some.inj h).symm⟩)
      · rw [if_neg h2] at h
        by_cases h3 : s.ram_frames.length < frames
        · rw [if_pos h3] at h
          exact Or.inr (Or.inr (Or.inl ⟨h1, h2, h3, (Option.some.inj h).symm⟩))
        · rw [if_neg h3] at h
          cases halg : pra.algorithm s.ram_frames pns i with
          | none => rw [halg] at h; exact absurd h (by simp)
          | some out =>
            rw [halg] at h
            obtain ⟨v, ram2, ej⟩ := out
            obtain ⟨hv, hi, hram, hej⟩ := algorithm_shape halg
            refine Or.inr (Or.inr (Or.inr ⟨h1, h2, h3, v, hv, hi, ?_, ?_⟩))
            · rw [hram, hej, hpn]
            · rw [← Option.some.inj h, hram, hej, hpn]

/-- One driver iteration preserves the run invariant, and the fault
counter increments exactly when the current page is not resident. -/
theorem step_inv {pra : PageReplacementAlgorithm} {frames tlbSize : Nat}
    {pns : List Nat} {s : SimState} {i : Nat} {s' : SimState}
    (hI : SimInv tlbSize frames s)
    (h : step pra frames tlbSize pns s i = some s') :
    SimInv tlbSize frames s' ∧
      ∃ pn, pns.get? i = some pn ∧
        s'.page_faults = s.page_faults +
          (if pn ∈ residentPns s.ram_frames then 0 else 1) := by
  obtain ⟨hlen, hndr, hndt, hsub, htb⟩ := hI
  obtain ⟨pn, hg, hcase⟩ := step_cases h
  rcases hcase with ⟨h1, rfl⟩ | ⟨h1, h2, rfl⟩ | ⟨h1, h2, h3, rfl⟩ |
    ⟨h1, h2, h3, v, hv, hi, halg, rfl⟩
  · exact ⟨⟨hlen, hndr, hndt, hsub, htb⟩,
      pn, hg, by rw [if_pos (hsub pn h1)]; omega⟩
  · refine ⟨⟨hlen, hndr, tlbPush_nodup _ _ _ hndt, ?_, ?_⟩, pn, hg, ?_⟩
    · intro x hx
      rcases mem_tlbPush _ _ _ _ hx with rfl | hx2
      · exact h2
      · exact hsub x hx2
    · intro ht
      exact tlbPush_length_le _ _ _ ht (htb ht)
    · rw [if_pos h2]
      rfl
  · refine ⟨⟨?_, ?_, tlbPush_nodup _ _ _ hndt, ?_, ?_⟩, pn, hg, ?_⟩
    · simpa using h3
    · rw [residentPns_append]
      refine List.Nodup.append hndr (by simp) ?_
      intro x hx hx2
      simp only [List.mem_singleton] at hx2
      subst hx2
      exact h2 hx
    · intro x hx
      rw [residentPns_append]
      rcases mem_tlbPush _ _ _ _ hx with rfl | hx2
      · simp
      · exact List.mem_append_left _ (hsub x hx2)
    · intro ht
      exact tlbPush_length_le _ _ _ ht (htb ht)
    · rw [if_neg h2]
  · refine ⟨⟨?_, ?_, tlbPush_nodup _ _ _ (hndt.erase _), ?_, ?_⟩,
      pn, hg, ?_⟩
    · simpa using hlen
    · rw [residentPns_set]
      exact nodup_set hndr h2
    · intro x hx
      rw [residentPns_set]
      rcases mem_tlbPush _ _ _ _ hx with rfl | hx2
      · exact mem_set_self (by simpa [residentPns_length] using hv)
      · have hxt : x ∈ s.tlb := List.mem_of_mem_erase hx2
        have hxr : x ∈ residentPns s.ram_frames := hsub x hxt
        have hxne2 : x ≠ (s.ram_frames.getD v default).pn :=
          (hndt.mem_erase_iff.mp hx2).1
        refine mem_set_of_ne hxr (by simpa [residentPns_length] using hv) ?_
        rw [residentPns_getD _ _ hv]
        exact hxne2
    · intro ht
      refine tlbPush_length_le _ _ _ ht ?_
      have := htb ht
      have h4 := List.length_erase_le ((s.ram_frames.getD v default).pn) s.tlb
      omega
    · rw [if_neg h2]

/-- With a positive frame count one driver iteration never panics. -/
theorem step_isSome {pra : PageReplacementAlgorithm} {frames tlbSize : Nat}
    {pns : List Nat} {s : SimState} {i : Nat}
    (_hI : SimInv tlbSize frames s) (hf : 1 ≤ frames)
    (hidx : i < pns.length) :
    (step pra frames tlbSize pns s i).isSome = true := by
  obtain ⟨pn, hg⟩ :
      ∃ pn, pns.get? i = some pn := by
    have := List.get?_eq_get hidx
    exact ⟨_, this⟩
  rw [step_eq_of_get hg]
  by_cases h1 : pn ∈ s.tlb
  · rw [if_pos h1]; rfl
  · rw [if_neg h1]
    by_cases h2 : pn ∈ residentPns s.ram_frames
    · rw [if_pos h2]; rfl
    · rw [if_neg h2]
      by_cases h3 : s.ram_frames.length < frames
      · rw [if_pos h3]; rfl
      · rw [if_neg h3]
        have hne : s.ram_frames ≠ [] := by
          intro hnil
          rw [hnil] at h3
          simp at h3
          omega
        have := algorithm_isSome pra s.ram_frames pns i hne hidx
        obtain ⟨out, hout⟩ := Option.isSome_iff_exists.mp this
        rw [hout]
        obtain ⟨v, ram2, ej⟩ := out
        rfl

/-- Invariants hold at every defined point of a run, and the fault counter
always equals the number of past accesses to pages that were not resident
at their access time. -/
theorem runUpTo_inv (pra : PageReplacementAlgorithm)
    (frames tlbSize : Nat) (pns : List Nat) :
    ∀ i s, runUpTo pra frames tlbSize pns i = some s →
      SimInv tlbSize frames s ∧
        s.page_faults = countNonResident pra frames tlbSize pns i := by
  intro i
  induction i with
  | zero =>
    intro s h
    have hs : s = initState := (Option.some.inj h).symm
    subst hs
    refine ⟨⟨by simp [initState], by simp [initState, residentPns], ?_, ?_, ?_⟩, rfl⟩
    · simp [initState]
    · intro x hx; simp [initState] at hx
    · intro _; simp [initState]
  | succ i ih =>
    intro s h
    unfold runUpTo at h
    cases hr : runUpTo pra frames tlbSize pns i with
    | none => rw [hr] at h; exact absurd h (by simp)
    | some s0 =>
      rw [hr] at h
      have h2 : (if i < pns.length then step pra frames tlbSize pns s0 i
          else some s0) = some s := h
      obtain ⟨hI0, hc0⟩ := ih s0 hr
      by_cases hlt : i < pns.length
      · rw [if_pos hlt] at h2
        obtain ⟨hI, pn, hg, hfa⟩ := step_inv hI0 h2
        refine ⟨hI, ?_⟩
        unfold countNonResident
        rw [hr, hg, hfa, hc0]
      · rw [if_neg hlt] at h2
        have hs : s = s0 := (Option.some.inj h2).symm
        subst hs
        refine ⟨hI0, ?_⟩
        unfold countNonResident
        have hg : pns.get? i = none :=
          List.get?_eq_none.mpr (by omega)
        rw [hr, hg, hc0]
        rfl

/-- With a positive frame count a run never panics. -/
theorem runUpTo_isSome (pra : PageReplacementAlgorithm)
    (frames tlbSize : Nat) (pns : List Nat) (hf : 1 ≤ frames) :
    ∀ i, (runUpTo pra frames tlbSize pns i).isSome = true := by
  intro i
  induction i with
  | zero => rfl
  | succ i ih =>
    obtain ⟨s0, hr⟩ := Option.isSome_iff_exists.mp ih
    unfold runUpTo
    rw [hr]
    show (if i < pns.length then step pra frames tlbSize pns s0 i
        else some s0).isSome = true
    by_cases hlt : i < pns.length
    · rw [if_pos hlt]
      exact step_isSome (runUpTo_inv pra frames tlbSize pns i s0 hr).1 hf hlt
    · rw [if_neg hlt]; rfl

/-! ## Claim C5: size and uniqueness invariants -/

/-- Claim C5, counterexample.  With cacheCapacity = 0 the translation
cache does not stay within its capacity: after the very first address the
TLB holds one entry, because push pops only when size equals max_size and
then inserts unconditionally. -/
theorem c5_invariants_counterexample :
    (runUpTo .Fifo 1 0 [7] 1).map (fun s => s.tlb.length) = some 1 ∧
    ¬ (1 : Nat) ≤ 0 := by
  refine ⟨by decide, by decide⟩

/-- Claim C5, amended.  For cacheCapacity ≥ 1, at every defined point of a
run the resident table holds at most frameCount entries, the translation
cache holds at most cacheCapacity entries, and no page number occupies two
resident slots; with cacheCapacity = 0 the cache bound fails at the first
miss while the other two invariants still hold. -/
theorem c5_invariants_amended (pra : PageReplacementAlgorithm)
    (frames tlbSize : Nat) (pns : List Nat) (i : Nat) (s : SimState)
    (ht : 1 ≤ tlbSize)
    (h : runUpTo pra frames tlbSize pns i = some s) :
    s.ram_frames.length ≤ frames ∧ s.tlb.length ≤ tlbSize ∧
      (residentPns s.ram_frames).Nodup := by
  obtain ⟨hI, _⟩ := runUpTo_inv pra frames tlbSize pns i s h
  exact ⟨hI.1, hI.2.2.2.2 ht, hI.2.1⟩

/-- Witness for c5_invariants_amended on a short FIFO run. -/
theorem c5_invariants_witness :
    ((runUpTo .Fifo 1 1 [1, 2, 1] 3).getD default).ram_frames.length ≤ 1 ∧
    ((runUpTo .Fifo 1 1 [1, 2, 1] 3).getD default).tlb.length ≤ 1 ∧
    (residentPns
      ((runUpTo .Fifo 1 1 [1, 2, 1] 3).getD default).ram_frames).Nodup :=
  c5_invariants_amended .Fifo 1 1 [1, 2, 1] 3 _ (by decide) rfl

/-! ## Claim C6: the fault counter counts non-resident accesses -/

/-- Claim C6.  At the end of every (non-panicking) run the page-fault
counter equals the number of processed addresses whose page was not
resident at the moment of access; the proof goes through the invariant
that every translation-cache entry is resident, so a cache hit never skips
a fault of a non-resident page. -/
theorem c6_fault_count (pra : PageReplacementAlgorithm)
    (frames tlbSize : Nat) (pns : List Nat) (s : SimState)
    (h : runSim pra frames tlbSize pns = some s) :
    s.page_faults = countNonResident pra frames tlbSize pns pns.length :=
  (runUpTo_inv pra frames tlbSize pns pns.length s h).2

/-- Witness for c6_fault_count on a short OPT run. -/
theorem c6_fault_count_witness :
    ((runSim .Opt 2 1 [1, 2, 3, 1]).getD default).page_faults =
      countNonResident .Opt 2 1 [1, 2, 3, 1] 4 :=
  c6_fault_count .Opt 2 1 [1, 2, 3, 1] _ rfl

/-! ## Claim C10: zero frames panic on the first address -/

/-- Claim C10.  With frameCount = 0 and a nonempty address sequence the
very first address is a hard miss with no free frame, the replacement
algorithm is invoked on the empty table, and eject indexes out of bounds:
the run is none (a panic), not a handled error.  The second conjunct
records that eject on the empty table fails for every victim index. -/
theorem c10_zero_frames (pra : PageReplacementAlgorithm) (tlbSize : Nat)
    (pns : List Nat) (hne : pns ≠ []) :
    runSim pra 0 tlbSize pns = none ∧
      ∀ ridx, eject [] pns 0 ridx = none := by
  have heject : ∀ ridx, eject [] pns 0 ridx = none := by
    intro ridx
    unfold eject
    simp
  refine ⟨?_, heject⟩
  have hlen : 0 < pns.length := List.length_pos.mpr hne
  have hstep : step pra 0 tlbSize pns initState 0 = none := by
    obtain ⟨pn, hg⟩ : ∃ pn, pns.get? 0 = some pn :=
      ⟨_, List.get?_eq_get hlen⟩
    rw [step_eq_of_get hg]
    rw [if_neg (by simp [initState]), if_neg (by simp [initState, residentPns]),
      if_neg (by simp [initState])]
    have halg : pra.algorithm [] pns 0 = none := by
      cases pra with
      | Fifo => rw [algorithm_fifo_def, heject]; rfl
      | Lru =>
        rw [algorithm_lru_def]
        by_cases hbr : 0 = pns.length - 1
        · rw [if_pos hbr, heject]; rfl
        · rw [if_neg hbr, heject]; rfl
      | Opt =>
        rw [algorithm_opt_def]
        by_cases hbr : 0 = pns.length - 1
        · rw [if_pos hbr, heject]; rfl
        · rw [if_neg hbr, heject]; rfl
    have halg2 : pra.algorithm initState.ram_frames pns 0 = none := halg
    rw [halg2]
  have hone : ∀ m, runUpTo pra 0 tlbSize pns (m + 1) = none := by
    intro m
    induction m with
    | zero =>
      have hz : runUpTo pra 0 tlbSize pns 1 =
          (if 0 < pns.length then step pra 0 tlbSize pns initState 0
           else some initState) := rfl
      rw [hz, if_pos hlen, hstep]
    | succ m ih =>
      have hz : runUpTo pra 0 tlbSize pns (m + 1 + 1) =
          (match runUpTo pra 0 tlbSize pns (m + 1) with
           | some s =>
              if m + 1 < pns.length then step pra 0 tlbSize pns s (m + 1)
              else some s
           | none => none) := rfl
      rw [hz, ih]
  have hlen2 : pns.length = (pns.length - 1) + 1 := by omega
  rw [runSim, hlen2]
  exact hone _

/-- Witness for c10_zero_frames at a one-address sequence under FIFO. -/
theorem c10_zero_frames_witness :
    runSim .Fifo 0 3 [7] = none ∧
      ∀ ridx, eject [] [7] 0 ridx = none :=
  c10_zero_frames .Fifo 3 [7] (by decide)

/-! ## The offline optimum of demand paging

optCost k C rest is the least possible number of faults any demand-paging
policy can incur serving the request suffix rest from cache contents C
with capacity k.  It is the specification-side yardstick for claim C1:
the opt run meets it and every run is bounded below by it. -/

def optCost (k : Nat) : Finset Nat → List Nat → Nat
  | _, [] => 0
  | C, r :: rest =>
      if r ∈ C then optCost k C rest
      else if C.card < k then 1 + optCost k (insert r C) rest
      else 1 + (if h : C.Nonempty then
        C.inf' h (fun v => optCost k (insert r (C.erase v)) rest)
      else 0)
termination_by _C l => l.length

theorem optCost_nil (k : Nat) (C : Finset Nat) : optCost k C [] = 0 := by
  simp [optCost]

theorem optCost_cons_mem {k : Nat} {C : Finset Nat} {r : Nat}
    {rest : List Nat} (h : r ∈ C) :
    optCost k C (r :: rest) = optCost k C rest := by
  rw [optCost, if_pos h]

theorem optCost_cons_fill {k : Nat} {C : Finset Nat} {r : Nat}
    {rest : List Nat} (h : r ∉ C) (hc : C.card < k) :
    optCost k C (r :: rest) = 1 + optCost k (insert r C) rest := by
  rw [optCost, if_neg h, if_pos hc]

theorem optCost_cons_evict {k : Nat} {C : Finset Nat} {r : Nat}
    {rest : List Nat} (h : r ∉ C) (hc : ¬ C.card < k) (hne : C.Nonempty) :
    optCost k C (r :: rest) =
      1 + C.inf' hne (fun v => optCost k (insert r (C.erase v)) rest) := by
  rw [optCost, if_neg h, if_neg hc, dif_pos hne]

/-- Comparison of two optional occurrence indices, reading none as
infinitely far in the future. -/
def occLE : Option Nat → Option Nat → Prop
  | _, none => True
  | some n, some m => n ≤ m
  | none, some _ => False

theorem occLE_none_right (a : Option Nat) : occLE a none := by
  cases a <;> trivial

theorem occLE_map_succ {a b : Option Nat} :
    occLE (a.map (· + 1)) (b.map (· + 1)) ↔ occLE a b := by
  cases a <;> cases b <;> simp [occLE]

theorem firstOcc_cons_self (r : Nat) (l : List Nat) :
    firstOcc (r :: l) r = some 0 := by
  simp [firstOcc]

theorem firstOcc_cons_ne {r x : Nat} (h : r ≠ x) (l : List Nat) :
    firstOcc (r :: l) x = (firstOcc l x).map (· + 1) := by
  simp [firstOcc, h]

theorem firstOcc_zero {r x : Nat} {l : List Nat}
    (h : firstOcc (r :: l) x = some 0) : r = x := by
  by_cases hr : r = x
  · exact hr
  · rw [firstOcc_cons_ne hr] at h
    cases hf : firstOcc l x <;> rw [hf] at h <;> simp at h

theorem firstOcc_eq_none {l : List Nat} {x : Nat} :
    firstOcc l x = none ↔ x ∉ l := by
  induction l with
  | nil => simp [firstOcc]
  | cons a l ih =>
    by_cases ha : a = x
    · subst ha
      rw [firstOcc_cons_self]
      simp
    · rw [firstOcc_cons_ne ha]
      constructor
      · intro h hmem
        rcases List.mem_cons.mp hmem with rfl | hmem2
        · exact ha rfl
        · have hn : firstOcc l x = none := by
            cases hf : firstOcc l x
            · rfl
            · rw [hf] at h; simp at h
          exact (ih.mp hn) hmem2
      · intro h
        have hx : x ∉ l := fun hm => h (List.mem_cons_of_mem a hm)
        rw [ih.mpr hx]
        rfl

/-- Cardinality of a one-element exchange. -/
theorem card_swap {B : Finset Nat} {u w : Nat} (hu : u ∈ B) (hw : w ∉ B) :
    (insert w (B.erase u)).card = B.card := by
  have h1 : w ∉ B.erase u := fun h => hw (Finset.mem_of_mem_erase h)
  rw [Finset.card_insert_of_not_mem h1, Finset.card_erase_of_mem hu]
  have : 1 ≤ B.card := Finset.card_pos.mpr ⟨u, hu⟩
  omega

/-- A larger cache never costs more: optCost is antitone in the cache
contents (both caches within capacity). -/
theorem optCost_mono {k : Nat} (_hk : 1 ≤ k) :
    ∀ (rest : List Nat) (X Y : Finset Nat), X ⊆ Y → Y.card ≤ k →
      optCost k Y rest ≤ optCost k X rest := by
  intro rest
  induction rest with
  | nil => intro X Y _ _; simp [optCost_nil]
  | cons r rest ih =>
    intro X Y hXY hYk
    by_cases hrX : r ∈ X
    · have hrY : r ∈ Y := hXY hrX
      rw [optCost_cons_mem hrX, optCost_cons_mem hrY]
      exact ih X Y hXY hYk
    · by_cases hrY : r ∈ Y
      · rw [optCost_cons_mem hrY]
        by_cases hcX : X.card < k
        · rw [optCost_cons_fill hrX hcX]
          have h1 : optCost k Y rest ≤ optCost k (insert r X) rest :=
            ih (insert r X) Y (Finset.insert_subset hrY hXY) hYk
          omega
        · have hne : X.Nonempty := by
            apply Finset.card_pos.mp
            omega
          rw [optCost_cons_evict hrX hcX hne]
          have hbound : optCost k Y rest ≤
              X.inf' hne (fun v => optCost k (insert r (X.erase v)) rest) := by
            apply Finset.le_inf'
            intro v hv
            apply ih
            · exact Finset.insert_subset hrY
                ((Finset.erase_subset _ _).trans hXY)
            · exact hYk
          omega
      · by_cases hcY : Y.card < k
        · have hcX : X.card < k :=
            lt_of_le_of_lt (Finset.card_le_card hXY) hcY
          rw [optCost_cons_fill hrX hcX, optCost_cons_fill hrY hcY]
          have h1 := ih (insert r X) (insert r Y)
            (Finset.insert_subset_insert r hXY)
            (by rw [Finset.card_insert_of_not_mem hrY]; omega)
          omega
        · by_cases hcX : X.card < k
          · rw [optCost_cons_fill hrX hcX]
            have hneY : Y.Nonempty := by
              apply Finset.card_pos.mp
              omega
            rw [optCost_cons_evict hrY hcY hneY]
            have hW : ∃ w ∈ Y, w ∉ X := by
              by_contra hno
              push_neg at hno
              have hsub : Y ⊆ X := fun y hy => hno y hy
              have := Finset.card_le_card hsub
              have := Finset.card_le_card hXY
              omega
            obtain ⟨w, hwY, hwX⟩ := hW
            have h1 : Y.inf' hneY
                (fun v => optCost k (insert r (Y.erase v)) rest) ≤
                optCost k (insert r (Y.erase w)) rest :=
              Finset.inf'_le _ hwY
            have h2 : optCost k (insert r (Y.erase w)) rest ≤
                optCost k (insert r X) rest := by
              apply ih
              · apply Finset.insert_subset_insert
                intro x hx
                exact Finset.mem_erase.mpr
                  ⟨fun he => hwX (he ▸ hx), hXY hx⟩
              · rw [Finset.card_insert_of_not_mem
                  (fun h => hrY (Finset.mem_of_mem_erase h)),
                  Finset.card_erase_of_mem hwY]
                omega
            omega
          · have hXY2 : X = Y := by
              apply Finset.eq_of_subset_of_card_le hXY
              have := Finset.card_le_card hXY
              omega
            subst hXY2
            exact le_refl _

/-! ## Exchange identities on finite sets -/

theorem swap_insert_back {B : Finset Nat} {u w : Nat} (hu : u ∈ B)
    (hw : w ∉ B) : insert u (insert w (B.erase u)) = insert w B := by
  ext x
  simp only [Finset.mem_insert, Finset.mem_erase]
  constructor
  · rintro (rfl | rfl | ⟨_, hxB⟩)
    · exact Or.inr hu
    · exact Or.inl rfl
    · exact Or.inr hxB
  · rintro (rfl | hxB)
    · exact Or.inr (Or.inl rfl)
    · by_cases hxu : x = u
      · exact Or.inl hxu
      · exact Or.inr (Or.inr ⟨hxu, hxB⟩)

theorem swap_reinsert {B : Finset Nat} {u w v : Nat} (hu : u ∈ B)
    (hw : w ∉ B) (hvB : v ∈ B) (hvu : v ≠ u) :
    insert v ((insert w (B.erase v)).erase u) = insert w (B.erase u) := by
  have huw : u ≠ w := fun h => hw (h ▸ hu)
  ext x
  simp only [Finset.mem_insert, Finset.mem_erase]
  constructor
  · rintro (rfl | ⟨hxu, (rfl | ⟨_, hxB⟩)⟩)
    · exact Or.inr ⟨hvu, hvB⟩
    · exact Or.inl rfl
    · exact Or.inr ⟨hxu, hxB⟩
  · rintro (rfl | ⟨hxu, hxB⟩)
    · exact Or.inr ⟨huw.symm, Or.inl rfl⟩
    · by_cases hxv : x = v
      · exact Or.inl hxv
      · exact Or.inr ⟨hxu, Or.inr ⟨hxv, hxB⟩⟩

theorem swap_fault_comm {B : Finset Nat} {u w v r : Nat} (hu : u ∈ B)
    (hw : w ∉ B) (hvB : v ∈ B) (_hvu : v ≠ u) (hrB : r ∉ B) (hrw : r ≠ w) :
    insert w ((insert r (B.erase v)).erase u) =
      insert r ((insert w (B.erase u)).erase v) := by
  have hru : r ≠ u := fun h => hrB (h ▸ hu)
  have hwv : w ≠ v := fun h => hw (h ▸ hvB)
  ext x
  simp only [Finset.mem_insert, Finset.mem_erase]
  constructor
  · rintro (rfl | ⟨hxu, (rfl | ⟨hxv, hxB⟩)⟩)
    · exact Or.inr ⟨hwv, Or.inl rfl⟩
    · exact Or.inl rfl
    · exact Or.inr ⟨hxv, Or.inr ⟨hxu, hxB⟩⟩
  · rintro (rfl | ⟨hxv, (rfl | ⟨hxu, hxB⟩)⟩)
    · exact Or.inr ⟨hru, Or.inl rfl⟩
    · exact Or.inl rfl
    · exact Or.inr ⟨hxu, Or.inr ⟨hxv, hxB⟩⟩

theorem insert_erase_exchange {X : Finset Nat} {u w r : Nat} (hwu : w ≠ u) :
    insert r ((insert u X).erase w) = insert u (insert r (X.erase w)) := by
  ext x
  simp only [Finset.mem_insert, Finset.mem_erase]
  constructor
  · rintro (rfl | ⟨hxw, (rfl | hxB)⟩)
    · exact Or.inr (Or.inl rfl)
    · exact Or.inl rfl
    · exact Or.inr (Or.inr ⟨hxw, hxB⟩)
  · rintro (rfl | rfl | ⟨hxw, hxB⟩)
    · exact Or.inr ⟨hwu.symm, Or.inl rfl⟩
    · exact Or.inl rfl
    · exact Or.inr ⟨hxw, Or.inr hxB⟩

/-- The joint exchange bounds on the offline optimum: swapping one cached
page for another costs at most one extra fault (left), and losing one
cached page costs at most one extra fault (right). -/
theorem optCost_swap_drop {k : Nat} (hk : 1 ≤ k) :
    ∀ rest : List Nat,
      (∀ (B : Finset Nat) (u w : Nat), u ∈ B → w ∉ B → B.card ≤ k →
        optCost k (insert w (B.erase u)) rest ≤ optCost k B rest + 1) ∧
      (∀ (X : Finset Nat) (u : Nat), u ∉ X → X.card + 1 ≤ k →
        optCost k X rest ≤ optCost k (insert u X) rest + 1) := by
  intro rest
  induction rest with
  | nil =>
    constructor <;> intros <;> simp [optCost_nil]
  | cons r rest ih =>
    obtain ⟨ihS, ihD⟩ := ih
    constructor
    · -- swap bound
      intro B u w hu hw hBk
      have huw : u ≠ w := fun h => hw (h ▸ hu)
      have hwA : w ∈ insert w (B.erase u) := Finset.mem_insert_self w _
      have huA : u ∉ insert w (B.erase u) := by
        simp only [Finset.mem_insert, Finset.mem_erase]
        rintro (h | ⟨h1, _⟩)
        · exact huw h
        · exact h1 rfl
      have hcardA : (insert w (B.erase u)).card = B.card := card_swap hu hw
      by_cases hrw : r = w
      · subst hrw
        rw [optCost_cons_mem hwA]
        by_cases hcB : B.card < k
        · rw [optCost_cons_fill hw hcB, ← swap_insert_back hu hw]
          have hD := ihD (insert r (B.erase u)) u huA (by omega)
          omega
        · have hneB : B.Nonempty := Finset.card_pos.mp (by omega)
          rw [optCost_cons_evict hw hcB hneB]
          obtain ⟨v0, hv0, hinf⟩ := Finset.exists_mem_eq_inf' hneB
            (fun v => optCost k (insert r (B.erase v)) rest)
          have hAv0 : optCost k (insert r (B.erase u)) rest ≤
              optCost k (insert r (B.erase v0)) rest + 1 := by
            by_cases hvu : v0 = u
            · subst hvu; omega
            · have hT := ihS (insert r (B.erase v0)) u v0
                (Finset.mem_insert_of_mem
                  (Finset.mem_erase.mpr ⟨fun h => hvu h.symm, hu⟩))
                (by simp only [Finset.mem_insert, Finset.mem_erase]
                    rintro (h | ⟨h1, _⟩)
                    · exact hw (h ▸ hv0)
                    · exact h1 rfl)
                (by rw [card_swap hv0 hw]; omega)
              rw [swap_reinsert hu hw hv0 hvu] at hT
              exact hT
          omega
      · by_cases hru : r = u
        · subst hru
          rw [optCost_cons_mem hu]
          by_cases hcA : (insert w (B.erase r)).card < k
          · rw [optCost_cons_fill huA hcA, swap_insert_back hu hw]
            have hM : optCost k (insert w B) rest ≤ optCost k B rest :=
              optCost_mono hk rest B (insert w B) (Finset.subset_insert _ _)
                (by rw [Finset.card_insert_of_not_mem hw]; omega)
            omega
          · have hneA : (insert w (B.erase r)).Nonempty :=
              ⟨w, Finset.mem_insert_self w _⟩
            rw [optCost_cons_evict huA hcA hneA]
            have hBeq : insert r ((insert w (B.erase r)).erase w) = B := by
              rw [Finset.erase_insert
                (fun h => hw (Finset.mem_of_mem_erase h)),
                Finset.insert_erase hu]
            have h1 : (insert w (B.erase r)).inf' hneA
                (fun v => optCost k (insert r ((insert w (B.erase r)).erase v))
                  rest) ≤
                optCost k (insert r ((insert w (B.erase r)).erase w)) rest :=
              Finset.inf'_le _ hwA
            rw [hBeq] at h1
            omega
        · have hrA : r ∈ insert w (B.erase u) ↔ r ∈ B := by
            simp only [Finset.mem_insert, Finset.mem_erase]
            constructor
            · rintro (h | ⟨_, h2⟩)
              · exact absurd h hrw
              · exact h2
            · intro h
              exact Or.inr ⟨hru, h⟩
          by_cases hrB : r ∈ B
          · rw [optCost_cons_mem (hrA.mpr hrB), optCost_cons_mem hrB]
            exact ihS B u w hu hw hBk
          · have hrA2 : r ∉ insert w (B.erase u) := fun h => hrB (hrA.mp h)
            by_cases hcB : B.card < k
            · have hcA : (insert w (B.erase u)).card < k := by omega
              rw [optCost_cons_fill hrA2 hcA, optCost_cons_fill hrB hcB]
              have hS2 := ihS (insert r B) u w
                (Finset.mem_insert_of_mem hu)
                (by simp only [Finset.mem_insert]
                    rintro (h | h)
                    · exact hrw h.symm
                    · exact hw h)
                (by rw [Finset.card_insert_of_not_mem hrB]; omega)
              have hs : insert w ((insert r B).erase u) =
                  insert r (insert w (B.erase u)) := by
                rw [Finset.erase_insert_of_ne hru, Finset.Insert.comm]
              rw [hs] at hS2
              omega
            · have hcA : ¬ (insert w (B.erase u)).card < k := by omega
              have hneB : B.Nonempty := Finset.card_pos.mp (by omega)
              have hneA : (insert w (B.erase u)).Nonempty :=
                ⟨w, Finset.mem_insert_self w _⟩
              rw [optCost_cons_evict hrA2 hcA hneA,
                optCost_cons_evict hrB hcB hneB]
              obtain ⟨v0, hv0, hinfB⟩ := Finset.exists_mem_eq_inf' hneB
                (fun v => optCost k (insert r (B.erase v)) rest)
              by_cases hv0u : v0 = u
              · subst hv0u
                have hEq : insert r ((insert w (B.erase v0)).erase w) =
                    insert r (B.erase v0) := by
                  rw [Finset.erase_insert
                    (fun h => hw (Finset.mem_of_mem_erase h))]
                have h1 : (insert w (B.erase v0)).inf' hneA
                    (fun v => optCost k
                      (insert r ((insert w (B.erase v0)).erase v)) rest) ≤
                    optCost k (insert r ((insert w (B.erase v0)).erase w))
                      rest :=
                  Finset.inf'_le _ hwA
                rw [hEq] at h1
                omega
              · have hv0A : v0 ∈ insert w (B.erase u) :=
                  Finset.mem_insert_of_mem
                    (Finset.mem_erase.mpr ⟨hv0u, hv0⟩)
                have h1 : (insert w (B.erase u)).inf' hneA
                    (fun v => optCost k
                      (insert r ((insert w (B.erase u)).erase v)) rest) ≤
                    optCost k (insert r ((insert w (B.erase u)).erase v0))
                      rest :=
                  Finset.inf'_le _ hv0A
                have hS2 := ihS (insert r (B.erase v0)) u w
                  (Finset.mem_insert_of_mem
                    (Finset.mem_erase.mpr ⟨fun h => hv0u h.symm, hu⟩))
                  (by simp only [Finset.mem_insert, Finset.mem_erase]
                      rintro (h | ⟨_, h2⟩)
                      · exact hrw h.symm
                      · exact hw h2)
                  (by rw [card_swap hv0 hrB]; omega)
                rw [swap_fault_comm hu hw hv0 hv0u hrB hrw] at hS2
                omega
    · -- drop bound
      intro X u huX hXk
      have hcardI : (insert u X).card = X.card + 1 :=
        Finset.card_insert_of_not_mem huX
      by_cases hrX : r ∈ X
      · rw [optCost_cons_mem hrX,
          optCost_cons_mem (Finset.mem_insert_of_mem hrX)]
        exact ihD X u huX hXk
      · by_cases hru : r = u
        · subst hru
          rw [optCost_cons_mem (Finset.mem_insert_self r X),
            optCost_cons_fill hrX (by omega)]
          omega
        · have hcX : X.card < k := by omega
          have hrI : r ∉ insert u X := by
            simp only [Finset.mem_insert]
            rintro (h | h)
            · exact hru h
            · exact hrX h
          rw [optCost_cons_fill hrX hcX]
          by_cases hcI : (insert u X).card < k
          · rw [optCost_cons_fill hrI hcI]
            have hD2 := ihD (insert r X) u
              (by simp only [Finset.mem_insert]
                  rintro (h | h)
                  · exact hru h.symm
                  · exact huX h)
              (by rw [Finset.card_insert_of_not_mem hrX]; omega)
            rw [Finset.Insert.comm] at hD2
            omega
          · have hneI : (insert u X).Nonempty :=
              ⟨u, Finset.mem_insert_self u X⟩
            rw [optCost_cons_evict hrI hcI hneI]
            obtain ⟨w0, hw0, hinfI⟩ := Finset.exists_mem_eq_inf' hneI
              (fun v => optCost k (insert r ((insert u X).erase v)) rest)
            by_cases hw0u : w0 = u
            · have h2 : optCost k (insert r ((insert u X).erase w0)) rest =
                  optCost k (insert r X) rest := by
                rw [hw0u, Finset.erase_insert huX]
              omega
            · have hw0X : w0 ∈ X := by
                rcases Finset.mem_insert.mp hw0 with h | h
                · exact absurd h hw0u
                · exact h
              have hrw0 : r ≠ w0 := fun h => hrX (h ▸ hw0X)
              have hS2 := ihS (insert r ((insert u X).erase w0)) u w0
                (by rw [insert_erase_exchange hw0u]
                    exact Finset.mem_insert_self u _)
                (by rw [insert_erase_exchange hw0u]
                    simp only [Finset.mem_insert, Finset.mem_erase]
                    rintro (h | h | ⟨h1, _⟩)
                    · exact hw0u h
                    · exact hrw0 h.symm
                    · exact h1 rfl)
                (by rw [card_swap hw0 hrI]; omega)
              have hEq2 : insert w0
                  ((insert r ((insert u X).erase w0)).erase u) =
                  insert r X := by
                rw [insert_erase_exchange hw0u,
                  Finset.erase_insert
                    (by simp only [Finset.mem_insert, Finset.mem_erase]
                        rintro (h | ⟨_, h2⟩)
                        · exact hru h.symm
                        · exact huX h2),
                  Finset.Insert.comm, Finset.insert_erase hw0X]
              rw [hEq2] at hS2
              omega

/-- The key exchange property behind the Belady bound: if the cached page
u is next used no earlier than the uncached page w, then trading u for w
never increases the offline optimum. -/
theorem optCost_exchange {k : Nat} (hk : 1 ≤ k) :
    ∀ (rest : List Nat) (B : Finset Nat) (u w : Nat),
      u ∈ B → w ∉ B → occLE (firstOcc rest w) (firstOcc rest u) →
      B.card ≤ k →
      optCost k (insert w (B.erase u)) rest ≤ optCost k B rest := by
  intro rest
  induction rest with
  | nil => intro B u w _ _ _ _; simp [optCost_nil]
  | cons r rest ih =>
    intro B u w hu hw hocc hBk
    obtain ⟨hS, hD⟩ := optCost_swap_drop hk rest
    have huw : u ≠ w := fun h => hw (h ▸ hu)
    have hwA : w ∈ insert w (B.erase u) := Finset.mem_insert_self w _
    have huA : u ∉ insert w (B.erase u) := by
      simp only [Finset.mem_insert, Finset.mem_erase]
      rintro (h | ⟨h1, _⟩)
      · exact huw h
      · exact h1 rfl
    have hcardA : (insert w (B.erase u)).card = B.card := card_swap hu hw
    by_cases hru : r = u
    · exfalso
      subst hru
      rw [firstOcc_cons_self] at hocc
      cases hfw : firstOcc (r :: rest) w with
      | none => rw [hfw] at hocc; exact hocc
      | some n =>
        rw [hfw] at hocc
        have hn : n ≤ 0 := hocc
        have hn0 : n = 0 := by omega
        rw [hn0] at hfw
        exact huw (firstOcc_zero hfw)
    · by_cases hrw : r = w
      · subst hrw
        rw [optCost_cons_mem hwA]
        by_cases hcB : B.card < k
        · rw [optCost_cons_fill hw hcB, ← swap_insert_back hu hw]
          have hD2 := hD (insert r (B.erase u)) u huA (by omega)
          omega
        · have hneB : B.Nonempty := Finset.card_pos.mp (by omega)
          rw [optCost_cons_evict hw hcB hneB]
          obtain ⟨v0, hv0, hinf⟩ := Finset.exists_mem_eq_inf' hneB
            (fun v => optCost k (insert r (B.erase v)) rest)
          have hAv0 : optCost k (insert r (B.erase u)) rest ≤
              optCost k (insert r (B.erase v0)) rest + 1 := by
            by_cases hvu : v0 = u
            · subst hvu; omega
            · have hT := hS (insert r (B.erase v0)) u v0
                (Finset.mem_insert_of_mem
                  (Finset.mem_erase.mpr ⟨fun h => hvu h.symm, hu⟩))
                (by simp only [Finset.mem_insert, Finset.mem_erase]
                    rintro (h | ⟨h1, _⟩)
                    · exact hw (h ▸ hv0)
                    · exact h1 rfl)
                (by rw [card_swap hv0 hw]; omega)
              rw [swap_reinsert hu hw hv0 hvu] at hT
              exact hT
          omega
      · have hoccrest : occLE (firstOcc rest w) (firstOcc rest u) := by
          rw [firstOcc_cons_ne hrw, firstOcc_cons_ne hru] at hocc
          exact occLE_map_succ.mp hocc
        have hrA : r ∈ insert w (B.erase u) ↔ r ∈ B := by
          simp only [Finset.mem_insert, Finset.mem_erase]
          constructor
          · rintro (h | ⟨_, h2⟩)
            · exact absurd h hrw
            · exact h2
          · intro h
            exact Or.inr ⟨hru, h⟩
        by_cases hrB : r ∈ B
        · rw [optCost_cons_mem (hrA.mpr hrB), optCost_cons_mem hrB]
          exact ih B u w hu hw hoccrest hBk
        · have hrA2 : r ∉ insert w (B.erase u) := fun h => hrB (hrA.mp h)
          by_cases hcB : B.card < k
          · have hcA : (insert w (B.erase u)).card < k := by omega
            rw [optCost_cons_fill hrA2 hcA, optCost_cons_fill hrB hcB]
            have hih := ih (insert r B) u w
              (Finset.mem_insert_of_mem hu)
              (by simp only [Finset.mem_insert]
                  rintro (h | h)
                  · exact hrw h.symm
                  · exact hw h)
              hoccrest
              (by rw [Finset.card_insert_of_not_mem hrB]; omega)
            have hs : insert w ((insert r B).erase u) =
                insert r (insert w (B.erase u)) := by
              rw [Finset.erase_insert_of_ne hru, Finset.Insert.comm]
            rw [hs] at hih
            omega
          · have hcA : ¬ (insert w (B.erase u)).card < k := by omega
            have hneB : B.Nonempty := Finset.card_pos.mp (by omega)
            have hneA : (insert w (B.erase u)).Nonempty :=
              ⟨w, Finset.mem_insert_self w _⟩
            rw [optCost_cons_evict hrA2 hcA hneA,
              optCost_cons_evict hrB hcB hneB]
            obtain ⟨v0, hv0, hinfB⟩ := Finset.exists_mem_eq_inf' hneB
              (fun v => optCost k (insert r (B.erase v)) rest)
            by_cases hv0u : v0 = u
            · have hEq : insert r ((insert w (B.erase u)).erase w) =
                  insert r (B.erase v0) := by
                rw [Finset.erase_insert
                  (fun h => hw (Finset.mem_of_mem_erase h)), hv0u]
              have h1 : (insert w (B.erase u)).inf' hneA
                  (fun v => optCost k
                    (insert r ((insert w (B.erase u)).erase v)) rest) ≤
                  optCost k (insert r ((insert w (B.erase u)).erase w))
                    rest :=
                Finset.inf'_le _ hwA
              rw [hEq] at h1
              omega
            · have hv0A : v0 ∈ insert w (B.erase u) :=
                Finset.mem_insert_of_mem
                  (Finset.mem_erase.mpr ⟨hv0u, hv0⟩)
              have h1 : (insert w (B.erase u)).inf' hneA
                  (fun v => optCost k
                    (insert r ((insert w (B.erase u)).erase v)) rest) ≤
                  optCost k (insert r ((insert w (B.erase u)).erase v0))
                    rest :=
                Finset.inf'_le _ hv0A
              have hih := ih (insert r (B.erase v0)) u w
                (Finset.mem_insert_of_mem
                  (Finset.mem_erase.mpr ⟨fun h => hv0u h.symm, hu⟩))
                (by simp only [Finset.mem_insert, Finset.mem_erase]
                    rintro (h | ⟨_, h2⟩)
                    · exact hrw h.symm
                    · exact hw h2)
                hoccrest
                (by rw [card_swap hv0 hrB]; omega)
              rw [swap_fault_comm hu hw hv0 hv0u hrB hrw] at hih
              omega

/-! ## The cache contents of a run state, as a finite set -/

/-- The set of resident page numbers of a state. -/
def cacheOf (s : SimState) : Finset Nat :=
  (residentPns s.ram_frames).toFinset

theorem mem_cacheOf {s : SimState} {x : Nat} :
    x ∈ cacheOf s ↔ x ∈ residentPns s.ram_frames := by
  simp [cacheOf]

theorem cacheOf_card {s : SimState}
    (h : (residentPns s.ram_frames).Nodup) :
    (cacheOf s).card = s.ram_frames.length := by
  rw [cacheOf, List.toFinset_card_of_nodup h, residentPns_length]

theorem mem_residentPns_iff {ram : List PageTableEntry} {x : Nat} :
    x ∈ residentPns ram ↔
      ∃ j, j < ram.length ∧ (ram.getD j default).pn = x := by
  rw [residentPns]
  constructor
  · intro hx
    obtain ⟨e, he, hex⟩ := List.mem_map.mp hx
    obtain ⟨j, hj, hje⟩ := List.getElem_of_mem he
    refine ⟨j, hj, ?_⟩
    rw [List.getD_eq_getElem ram default hj, hje, hex]
  · rintro ⟨j, hj, rfl⟩
    exact List.mem_map_of_mem _ (getD_mem hj)

theorem mem_set_iff_of_nodup {l : List Nat} {v : Nat} {x : Nat}
    (hl : l.Nodup) (hv : v < l.length) (a : Nat) :
    a ∈ l.set v x ↔ a = x ∨ (a ∈ l ∧ a ≠ l.getD v default) := by
  constructor
  · intro ha
    by_cases hax : a = x
    · exact Or.inl hax
    · obtain ⟨j, hj, hja⟩ := List.getElem_of_mem ha
      have hjlen : j < l.length := by simpa using hj
      by_cases hjv : j = v
      · exfalso
        subst hjv
        apply hax
        rw [← hja]
        exact List.getElem_set_self (by simpa using hv)
      · have hval : l.get ⟨j, hjlen⟩ = a := by
          rw [List.get_eq_getElem, ← hja,
            List.getElem_set_ne (fun h => hjv h.symm)]
        refine Or.inr ⟨by rw [← hval]; exact List.get_mem l j hjlen, ?_⟩
        intro haeq
        rw [List.getD_eq_getElem l default hv] at haeq
        have : j = v := by
          apply (hl.getElem_inj_iff).mp
          rw [List.get_eq_getElem] at hval
          rw [hval, haeq]
        exact hjv this
  · rintro (rfl | ⟨haL, hane⟩)
    · exact mem_set_self hv
    · exact mem_set_of_ne haL hv hane

theorem toFinset_set_of_nodup {l : List Nat} {v x : Nat}
    (hl : l.Nodup) (hv : v < l.length) :
    (l.set v x).toFinset = insert x (l.toFinset.erase (l.getD v default)) := by
  ext a
  simp only [List.mem_toFinset, Finset.mem_insert, Finset.mem_erase]
  rw [mem_set_iff_of_nodup hl hv a]
  constructor
  · rintro (rfl | ⟨h1, h2⟩)
    · exact Or.inl rfl
    · exact Or.inr ⟨h2, h1⟩
  · rintro (rfl | ⟨h1, h2⟩)
    · exact Or.inl rfl
    · exact Or.inr ⟨h2, h1⟩

theorem toFinset_append_singleton (l : List Nat) (x : Nat) :
    (l ++ [x]).toFinset = insert x l.toFinset := by
  ext a
  simp only [List.toFinset_append, Finset.mem_union, List.mem_toFinset,
    Finset.mem_insert, List.mem_singleton]
  tauto

theorem runUpTo_isSome_of_le {pra : PageReplacementAlgorithm}
    {frames tlbSize : Nat} {pns : List Nat} {i j : Nat} (hij : i ≤ j)
    {t : SimState} (h : runUpTo pra frames tlbSize pns j = some t) :
    ∃ s, runUpTo pra frames tlbSize pns i = some s := by
  obtain ⟨d, rfl⟩ := Nat.exists_eq_add_of_le hij
  clear hij
  induction d generalizing t with
  | zero => exact ⟨t, h⟩
  | succ d ih =>
    have heq : i + (d + 1) = (i + d) + 1 := by omega
    rw [heq] at h
    unfold runUpTo at h
    cases hr : runUpTo pra frames tlbSize pns (i + d) with
    | none => rw [hr] at h; exact absurd h (by simp)
    | some s0 => exact ih hr

theorem runUpTo_succ_of_some {pra : PageReplacementAlgorithm}
    {frames tlbSize : Nat} {pns : List Nat} {i : Nat} {s : SimState}
    (hr : runUpTo pra frames tlbSize pns i = some s)
    (hlt : i < pns.length) :
    runUpTo pra frames tlbSize pns (i + 1) =
      step pra frames tlbSize pns s i := by
  unfold runUpTo
  rw [hr]
  show (if i < pns.length then step pra frames tlbSize pns s i
    else some s) = step pra frames tlbSize pns s i
  rw [if_pos hlt]

/-- Lower bound: from any defined point of any run, the faults still to
come are at least the offline optimum from the current cache contents.
Instantiated at the start of the run this bounds FIFO and LRU from below. -/
theorem faults_ge_optCost (pra : PageReplacementAlgorithm)
    (frames tlbSize : Nat) (pns : List Nat) (hf : 1 ≤ frames) :
    ∀ (m i : Nat) (s s_fin : SimState), pns.length - i = m →
      i ≤ pns.length →
      runUpTo pra frames tlbSize pns i = some s →
      runUpTo pra frames tlbSize pns pns.length = some s_fin →
      s.page_faults + optCost frames (cacheOf s) (pns.drop i) ≤
        s_fin.page_faults := by
  intro m
  induction m with
  | zero =>
    intro i s s_fin hm hi hr hrf
    have hieq : i = pns.length := by omega
    subst hieq
    rw [hr] at hrf
    have hs : s = s_fin := Option.some.inj hrf
    subst hs
    rw [List.drop_length, optCost_nil]
    omega
  | succ m ih =>
    intro i s s_fin hm hi hr hrf
    have hlt : i < pns.length := by omega
    obtain ⟨s1, hr1⟩ := runUpTo_isSome_of_le
      (show i + 1 ≤ pns.length by omega) hrf
    have hstep : step pra frames tlbSize pns s i = some s1 := by
      rw [← runUpTo_succ_of_some hr hlt]
      exact hr1
    obtain ⟨hI, _⟩ := runUpTo_inv pra frames tlbSize pns i s hr
    obtain ⟨hlen, hndr, hndt, hsub, htb⟩ := hI
    obtain ⟨pn, hg, hcase⟩ := step_cases hstep
    have hpns : pns.drop i = pn :: pns.drop (i + 1) := by
      rw [List.drop_eq_getElem_cons hlt]
      obtain ⟨hlt2, hget⟩ := List.get?_eq_some.mp hg
      rw [List.get_eq_getElem] at hget
      rw [hget]
    rw [hpns]
    rcases hcase with ⟨h1, hs1⟩ | ⟨h1, h2, hs1⟩ | ⟨h1, h2, h3, hs1⟩ |
      ⟨h1, h2, h3, v, hv, hi2, halg, hs1⟩
    · have hmem : pn ∈ cacheOf s := mem_cacheOf.mpr (hsub pn h1)
      rw [optCost_cons_mem hmem]
      have hIH := ih (i + 1) s1 s_fin (by omega) (by omega) hr1 hrf
      have hpf1 : s1.page_faults = s.page_faults := by rw [hs1]
      have hc1 : cacheOf s1 = cacheOf s := by rw [hs1]
      rw [hpf1, hc1] at hIH
      exact hIH
    · have hmem : pn ∈ cacheOf s := mem_cacheOf.mpr h2
      rw [optCost_cons_mem hmem]
      have hIH := ih (i + 1) s1 s_fin (by omega) (by omega) hr1 hrf
      have hpf1 : s1.page_faults = s.page_faults := by rw [hs1]
      have hc1 : cacheOf s1 = cacheOf s := by rw [hs1]; rfl
      rw [hpf1, hc1] at hIH
      exact hIH
    · have hnm : pn ∉ cacheOf s := fun h => h2 (mem_cacheOf.mp h)
      have hcard : (cacheOf s).card = s.ram_frames.length :=
        cacheOf_card hndr
      rw [optCost_cons_fill hnm (by omega)]
      have hIH := ih (i + 1) s1 s_fin (by omega) (by omega) hr1 hrf
      have hpf1 : s1.page_faults = s.page_faults + 1 := by rw [hs1]
      have hc1 : cacheOf s1 = insert pn (cacheOf s) := by
        rw [hs1]
        show (residentPns (s.ram_frames ++ [⟨i, pn⟩])).toFinset = _
        rw [residentPns_append, toFinset_append_singleton]
        rfl
      rw [hpf1, hc1] at hIH
      omega
    · have hnm : pn ∉ cacheOf s := fun h => h2 (mem_cacheOf.mp h)
      have hcard : (cacheOf s).card = s.ram_frames.length :=
        cacheOf_card hndr
      have hkc : ¬ (cacheOf s).card < frames := by omega
      have hne : (cacheOf s).Nonempty := Finset.card_pos.mp (by omega)
      rw [optCost_cons_evict hnm hkc hne]
      have hIH := ih (i + 1) s1 s_fin (by omega) (by omega) hr1 hrf
      have hpf1 : s1.page_faults = s.page_faults + 1 := by rw [hs1]
      have hc1 : cacheOf s1 =
          insert pn ((cacheOf s).erase ((s.ram_frames.getD v default).pn)) := by
        rw [hs1]
        show (residentPns (s.ram_frames.set v ⟨i, pn⟩)).toFinset = _
        rw [residentPns_set,
          toFinset_set_of_nodup hndr (by simpa [residentPns_length] using hv),
          residentPns_getD _ _ hv]
        rfl
      rw [hpf1, hc1] at hIH
      have hmemej : (s.ram_frames.getD v default).pn ∈ cacheOf s :=
        mem_cacheOf.mpr (getD_pn_mem_residentPns _ _ hv)
      have hinfle : (cacheOf s).inf' hne
          (fun w => optCost frames (insert pn ((cacheOf s).erase w))
            (pns.drop (i + 1))) ≤
          optCost frames
            (insert pn ((cacheOf s).erase ((s.ram_frames.getD v default).pn)))
            (pns.drop (i + 1)) :=
        Finset.inf'_le _ hmemej
      omega

/-- Away from the last index, the opt victim has the farthest next use
among all resident slots (a missing future occurrence counts as
infinitely far). -/
theorem opt_victim_farthest {ram : List PageTableEntry} {pns : List Nat}
    {i : Nat} {v : Nat} {ram2 : List PageTableEntry} {ej : Nat}
    (h : PageReplacementAlgorithm.algorithm .Opt ram pns i =
      some (v, ram2, ej))
    (hne : ram ≠ []) (hlast : i ≠ pns.length - 1) :
    ∀ j, j < ram.length →
      occLE (firstOcc (pns.drop (i + 1)) (ram.getD j default).pn)
            (firstOcc (pns.drop (i + 1)) (ram.getD v default).pn) := by
  rw [algorithm_opt_def, if_neg hlast] at h
  obtain ⟨hveq, hwlt, hp, _, _⟩ := eject_map_shape h
  rcases optScan_spec (pns.drop (i + 1)) ram 0 0 0 with ⟨heq, hall⟩ |
    ⟨j0, hj0, h2, hcase⟩
  · exfalso
    obtain ⟨e, he⟩ : ∃ e, e ∈ ram := by
      cases ram with
      | nil => exact absurd rfl hne
      | cons a l => exact ⟨a, List.mem_cons_self a l⟩
    obtain ⟨m, _, hm⟩ := hall e he
    omega
  · intro j hj
    rcases hcase with hnone | ⟨hlt, ⟨m, hfm, hr1⟩, hall⟩
    · have hveq2 : v = j0 := by omega
      rw [hveq2, hnone]
      exact occLE_none_right _
    · have hveq2 : v = j0 := by omega
      rw [hveq2, hfm]
      obtain ⟨m2, hf2, hle⟩ := hall j hj
      rw [hf2]
      show m2 ≤ m
      omega

/-- Upper bound: from any defined point of the opt run, the faults still
to come are at most the offline optimum from the current cache contents;
the opt policy is optimal. -/
theorem faults_le_optCost_opt (frames tlbSize : Nat) (pns : List Nat)
    (hf : 1 ≤ frames) :
    ∀ (m i : Nat) (s s_fin : SimState), pns.length - i = m →
      i ≤ pns.length →
      runUpTo .Opt frames tlbSize pns i = some s →
      runUpTo .Opt frames tlbSize pns pns.length = some s_fin →
      s_fin.page_faults ≤
        s.page_faults + optCost frames (cacheOf s) (pns.drop i) := by
  intro m
  induction m with
  | zero =>
    intro i s s_fin hm hi hr hrf
    have hieq : i = pns.length := by omega
    subst hieq
    rw [hr] at hrf
    have hs : s = s_fin := Option.some.inj hrf
    subst hs
    rw [List.drop_length, optCost_nil]
    omega
  | succ m ih =>
    intro i s s_fin hm hi hr hrf
    have hlt : i < pns.length := by omega
    obtain ⟨s1, hr1⟩ := runUpTo_isSome_of_le
      (show i + 1 ≤ pns.length by omega) hrf
    have hstep : step .Opt frames tlbSize pns s i = some s1 := by
      rw [← runUpTo_succ_of_some hr hlt]
      exact hr1
    obtain ⟨hI, _⟩ := runUpTo_inv .Opt frames tlbSize pns i s hr
    obtain ⟨hlen, hndr, hndt, hsub, htb⟩ := hI
    obtain ⟨pn, hg, hcase⟩ := step_cases hstep
    have hpns : pns.drop i = pn :: pns.drop (i + 1) := by
      rw [List.drop_eq_getElem_cons hlt]
      obtain ⟨hlt2, hget⟩ := List.get?_eq_some.mp hg
      rw [List.get_eq_getElem] at hget
      rw [hget]
    rw [hpns]
    rcases hcase with ⟨h1, hs1⟩ | ⟨h1, h2, hs1⟩ | ⟨h1, h2, h3, hs1⟩ |
      ⟨h1, h2, h3, v, hv, hi2, halg, hs1⟩
    · have hmem : pn ∈ cacheOf s := mem_cacheOf.mpr (hsub pn h1)
      rw [optCost_cons_mem hmem]
      have hIH := ih (i + 1) s1 s_fin (by omega) (by omega) hr1 hrf
      have hpf1 : s1.page_faults = s.page_faults := by rw [hs1]
      have hc1 : cacheOf s1 = cacheOf s := by rw [hs1]
      rw [hpf1, hc1] at hIH
      exact hIH
    · have hmem : pn ∈ cacheOf s := mem_cacheOf.mpr h2
      rw [optCost_cons_mem hmem]
      have hIH := ih (i + 1) s1 s_fin (by omega) (by omega) hr1 hrf
      have hpf1 : s1.page_faults = s.page_faults := by rw [hs1]
      have hc1 : cacheOf s1 = cacheOf s := by rw [hs1]; rfl
      rw [hpf1, hc1] at hIH
      exact hIH
    · have hnm : pn ∉ cacheOf s := fun h => h2 (mem_cacheOf.mp h)
      have hcard : (cacheOf s).card = s.ram_frames.length :=
        cacheOf_card hndr
      rw [optCost_cons_fill hnm (by omega)]
      have hIH := ih (i + 1) s1 s_fin (by omega) (by omega) hr1 hrf
      have hpf1 : s1.page_faults = s.page_faults + 1 := by rw [hs1]
      have hc1 : cacheOf s1 = insert pn (cacheOf s) := by
        rw [hs1]
        show (residentPns (s.ram_frames ++ [⟨i, pn⟩])).toFinset = _
        rw [residentPns_append, toFinset_append_singleton]
        rfl
      rw [hpf1, hc1] at hIH
      omega
    · have hnm : pn ∉ cacheOf s := fun h => h2 (mem_cacheOf.mp h)
      have hcard : (cacheOf s).card = s.ram_frames.length :=
        cacheOf_card hndr
      have hkc : ¬ (cacheOf s).card < frames := by omega
      have hne : (cacheOf s).Nonempty := Finset.card_pos.mp (by omega)
      have hramne : s.ram_frames ≠ [] := by
        intro hnil
        rw [hnil] at hlen h3
        simp at h3
        omega
      rw [optCost_cons_evict hnm hkc hne]
      have hIH := ih (i + 1) s1 s_fin (by omega) (by omega) hr1 hrf
      have hpf1 : s1.page_faults = s.page_faults + 1 := by rw [hs1]
      have hc1 : cacheOf s1 =
          insert pn ((cacheOf s).erase ((s.ram_frames.getD v default).pn)) := by
        rw [hs1]
        show (residentPns (s.ram_frames.set v ⟨i, pn⟩)).toFinset = _
        rw [residentPns_set,
          toFinset_set_of_nodup hndr (by simpa [residentPns_length] using hv),
          residentPns_getD _ _ hv]
        rfl
      rw [hpf1, hc1] at hIH
      have hejmem : (s.ram_frames.getD v default).pn ∈ cacheOf s :=
        mem_cacheOf.mpr (getD_pn_mem_residentPns _ _ hv)
      by_cases hlast : i = pns.length - 1
      · have hi1 : i + 1 = pns.length := by omega
        have hdrop : pns.drop (i + 1) = [] := by
          rw [hi1, List.drop_length]
        rw [hdrop, optCost_nil] at hIH
        omega
      · have hbound : optCost frames
            (insert pn ((cacheOf s).erase ((s.ram_frames.getD v default).pn)))
            (pns.drop (i + 1)) ≤
            (cacheOf s).inf' hne
              (fun w => optCost frames (insert pn ((cacheOf s).erase w))
                (pns.drop (i + 1))) := by
          apply Finset.le_inf'
          intro w hw
          by_cases hwej : w = (s.ram_frames.getD v default).pn
          · rw [hwej]
          · obtain ⟨j, hj, hjw⟩ := mem_residentPns_iff.mp (mem_cacheOf.mp hw)
            have hocc : occLE (firstOcc (pns.drop (i + 1)) w)
                (firstOcc (pns.drop (i + 1))
                  ((s.ram_frames.getD v default).pn)) := by
              rw [← hjw]
              exact opt_victim_farthest halg hramne hlast j hj
            have hK := optCost_exchange hf (pns.drop (i + 1))
              (insert pn ((cacheOf s).erase w))
              ((s.ram_frames.getD v default).pn) w
              (Finset.mem_insert_of_mem
                (Finset.mem_erase.mpr ⟨fun h => hwej h.symm, hejmem⟩))
              (by simp only [Finset.mem_insert, Finset.mem_erase]
                  rintro (h | ⟨h4, _⟩)
                  · exact hnm (h ▸ hw)
                  · exact h4 rfl)
              hocc
              (by rw [card_swap hw hnm]; omega)
            rw [swap_reinsert hejmem hnm hw
              (fun h => hwej h)] at hK
            exact hK
        omega

/-! ## Claim C1: the Belady property -/

/-- Claim C1.  For every address sequence, positive frame count and
translation-cache size, the OPT run faults no more than the FIFO run and
no more than the LRU run on the same sequence with the same settings.
The proof shows that the opt victim always has the farthest next use, so
the opt run achieves the offline optimum optCost, while every
demand-paging run (in particular FIFO and LRU) is bounded below by it. -/
theorem c1_belady_opt_min (frames tlbSize : Nat) (pns : List Nat)
    (hf : 1 ≤ frames) (sO sF sL : SimState)
    (hO : runSim .Opt frames tlbSize pns = some sO)
    (hF : runSim .Fifo frames tlbSize pns = some sF)
    (hL : runSim .Lru frames tlbSize pns = some sL) :
    sO.page_faults ≤ sF.page_faults ∧ sO.page_faults ≤ sL.page_faults := by
  have hU := faults_le_optCost_opt frames tlbSize pns hf pns.length 0
    initState sO (by omega) (by omega) rfl hO
  have hLF := faults_ge_optCost .Fifo frames tlbSize pns hf pns.length 0
    initState sF (by omega) (by omega) rfl hF
  have hLL := faults_ge_optCost .Lru frames tlbSize pns hf pns.length 0
    initState sL (by omega) (by omega) rfl hL
  constructor <;> omega

/-- Witness for c1_belady_opt_min on frames = 2, cache 2, sequence
[1, 2, 1, 3] (all three runs fault three times there). -/
theorem c1_belady_witness :
    ((runSim .Opt 2 2 [1, 2, 1, 3]).getD default).page_faults ≤
      ((runSim .Fifo 2 2 [1, 2, 1, 3]).getD default).page_faults ∧
    ((runSim .Opt 2 2 [1, 2, 1, 3]).getD default).page_faults ≤
      ((runSim .Lru 2 2 [1, 2, 1, 3]).getD default).page_faults :=
  c1_belady_opt_min 2 2 [1, 2, 1, 3] (by decide) _ _ _ rfl rfl rfl
